import Mathlib

set_option maxRecDepth 100000
set_option maxHeartbeats 1000000

/-!
Verification development for the `polycrystal` package.

The numeric code of the repository works on floating-point arrays.  This
development embeds it shallowly over exact scalar fields: the elasticity
component (`polycrystal.elasticity`) is modelled over the quadratic extension
ℚ(√2) (the only irrational constant it uses is `np.sqrt(2)` from the Mandel
component system), and the orientation/slip components over ℚ(√2, √3)
(the crystal-symmetry quaternion groups use cos/sin of multiples of π/6,
π/4 and π/3, whose values lie in that field).  Both fields are computable
with decidable equality, so concrete runs of the embedded code can be
evaluated inside the logic.
-/

namespace Polycrystal

/-- Quadratic extension of a commutative ring `R` by a square root of `d`:
the element `⟨a, b⟩` stands for `a + b·√d`.  Used to build the computable
scalar fields ℚ(√2) and ℚ(√2,√3) over which the repository code is
embedded. -/
structure QuadExt (R : Type) (d : R) where
  re : R
  im : R
deriving DecidableEq

namespace QuadExt

@[ext] protected theorem ext_parts {R : Type} {d : R} {x y : QuadExt R d}
    (h1 : x.re = y.re) (h2 : x.im = y.im) : x = y := by
  cases x; cases y; cases h1; cases h2; rfl

variable {R : Type} [CommRing R] {d : R}

protected def add (x y : QuadExt R d) : QuadExt R d := ⟨x.re + y.re, x.im + y.im⟩

protected def neg (x : QuadExt R d) : QuadExt R d := ⟨-x.re, -x.im⟩

protected def mul (x y : QuadExt R d) : QuadExt R d :=
  ⟨x.re * y.re + d * (x.im * y.im), x.re * y.im + x.im * y.re⟩

instance : Add (QuadExt R d) := ⟨QuadExt.add⟩

instance : Neg (QuadExt R d) := ⟨QuadExt.neg⟩

instance : Mul (QuadExt R d) := ⟨QuadExt.mul⟩

instance : Zero (QuadExt R d) := ⟨⟨0, 0⟩⟩

instance : One (QuadExt R d) := ⟨⟨1, 0⟩⟩

@[simp] theorem add_re (x y : QuadExt R d) : (x + y).re = x.re + y.re := rfl

@[simp] theorem add_im (x y : QuadExt R d) : (x + y).im = x.im + y.im := rfl

@[simp] theorem neg_re (x : QuadExt R d) : (-x).re = -x.re := rfl

@[simp] theorem neg_im (x : QuadExt R d) : (-x).im = -x.im := rfl

@[simp] theorem mul_re (x y : QuadExt R d) :
    (x * y).re = x.re * y.re + d * (x.im * y.im) := rfl

@[simp] theorem mul_im (x y : QuadExt R d) :
    (x * y).im = x.re * y.im + x.im * y.re := rfl

@[simp] theorem zero_re : (0 : QuadExt R d).re = 0 := rfl

@[simp] theorem zero_im : (0 : QuadExt R d).im = 0 := rfl

@[simp] theorem one_re : (1 : QuadExt R d).re = 1 := rfl

@[simp] theorem one_im : (1 : QuadExt R d).im = 0 := rfl

instance : CommRing (QuadExt R d) where
  add := (· + ·)
  zero := 0
  neg := (- ·)
  mul := (· * ·)
  one := 1
  nsmul := nsmulRec
  zsmul := zsmulRec
  natCast n := ⟨(n : R), 0⟩
  natCast_zero := by ext <;> simp
  natCast_succ := by intros; ext <;> simp
  add_assoc := by intros; ext <;> simp <;> ring
  zero_add := by intros; ext <;> simp
  add_zero := by intros; ext <;> simp
  add_comm := by intros; ext <;> simp <;> ring
  neg_add_cancel := by intros; ext <;> simp
  mul_assoc := by intros; ext <;> simp <;> ring
  one_mul := by intros; ext <;> simp
  mul_one := by intros; ext <;> simp
  left_distrib := by intros; ext <;> simp <;> ring
  right_distrib := by intros; ext <;> simp <;> ring
  mul_comm := by intros; ext <;> simp <;> ring
  zero_mul := by intros; ext <;> simp
  mul_zero := by intros; ext <;> simp

instance [Nontrivial R] : Nontrivial (QuadExt R d) :=
  ⟨⟨0, 1, fun h => absurd (congrArg re h) zero_ne_one⟩⟩

@[simp] theorem sub_re (x y : QuadExt R d) : (x - y).re = x.re - y.re := by
  rw [sub_eq_add_neg, add_re, neg_re, ← sub_eq_add_neg]

@[simp] theorem sub_im (x y : QuadExt R d) : (x - y).im = x.im - y.im := by
  rw [sub_eq_add_neg, add_im, neg_im, ← sub_eq_add_neg]

@[simp] theorem natCast_re (n : ℕ) : ((n : QuadExt R d)).re = (n : R) := rfl

@[simp] theorem natCast_im (n : ℕ) : ((n : QuadExt R d)).im = 0 := rfl

@[simp] theorem ofNat_re (n : ℕ) [n.AtLeastTwo] :
    (no_index (OfNat.ofNat n) : QuadExt R d).re = OfNat.ofNat n := rfl

@[simp] theorem ofNat_im (n : ℕ) [n.AtLeastTwo] :
    (no_index (OfNat.ofNat n) : QuadExt R d).im = 0 := rfl

/-- Evaluation homomorphism of a quadratic extension into a ring `K`, given a
homomorphism of the base ring and an element `s : K` whose square is the image
of `d`. -/
def lift {K : Type} [CommRing K] (f : R →+* K) (s : K) (hs : s * s = f d) :
    QuadExt R d →+* K where
  toFun x := f x.re + f x.im * s
  map_one' := by simp
  map_mul' x y := by
    simp only [mul_re, mul_im, map_add, map_mul]
    linear_combination (-(f x.im * f y.im)) * hs
  map_zero' := by simp
  map_add' x y := by simp only [add_re, add_im, map_add]; ring

@[simp] theorem lift_apply {K : Type} [CommRing K] (f : R →+* K) (s : K)
    (hs : s * s = f d) (x : QuadExt R d) : lift f s hs x = f x.re + f x.im * s := rfl

end QuadExt

/-- The field ℚ(√2), the scalar field of the elasticity embedding. -/
abbrev Q2 : Type := QuadExt ℚ 2

/-- The square root of two in ℚ(√2); mirrors `np.sqrt(2)` from the source. -/
def sqrt2 : Q2 := ⟨0, 1⟩

/-- Multiplicative inverse on ℚ(√2) (rationalizing the denominator);
total function returning 0 at 0. -/
def inv2 (x : Q2) : Q2 :=
  ⟨x.re / (x.re ^ 2 - 2 * x.im ^ 2), -x.im / (x.re ^ 2 - 2 * x.im ^ 2)⟩

@[simp] theorem consv2_1 {α : Type} (x : α) (u : Fin 1 → α) :
    Matrix.vecCons x u (1 : Fin 2) = u (0 : Fin 1) := rfl

@[simp] theorem consv3_1 {α : Type} (x : α) (u : Fin 2 → α) :
    Matrix.vecCons x u (1 : Fin 3) = u (0 : Fin 2) := rfl

@[simp] theorem consv3_2 {α : Type} (x : α) (u : Fin 2 → α) :
    Matrix.vecCons x u (2 : Fin 3) = u (1 : Fin 2) := rfl

@[simp] theorem consv4_1 {α : Type} (x : α) (u : Fin 3 → α) :
    Matrix.vecCons x u (1 : Fin 4) = u (0 : Fin 3) := rfl

@[simp] theorem consv4_2 {α : Type} (x : α) (u : Fin 3 → α) :
    Matrix.vecCons x u (2 : Fin 4) = u (1 : Fin 3) := rfl

@[simp] theorem consv4_3 {α : Type} (x : α) (u : Fin 3 → α) :
    Matrix.vecCons x u (3 : Fin 4) = u (2 : Fin 3) := rfl

@[simp] theorem consv5_1 {α : Type} (x : α) (u : Fin 4 → α) :
    Matrix.vecCons x u (1 : Fin 5) = u (0 : Fin 4) := rfl

@[simp] theorem consv5_2 {α : Type} (x : α) (u : Fin 4 → α) :
    Matrix.vecCons x u (2 : Fin 5) = u (1 : Fin 4) := rfl

@[simp] theorem consv5_3 {α : Type} (x : α) (u : Fin 4 → α) :
    Matrix.vecCons x u (3 : Fin 5) = u (2 : Fin 4) := rfl

@[simp] theorem consv5_4 {α : Type} (x : α) (u : Fin 4 → α) :
    Matrix.vecCons x u (4 : Fin 5) = u (3 : Fin 4) := rfl

@[simp] theorem consv6_1 {α : Type} (x : α) (u : Fin 5 → α) :
    Matrix.vecCons x u (1 : Fin 6) = u (0 : Fin 5) := rfl

@[simp] theorem consv6_2 {α : Type} (x : α) (u : Fin 5 → α) :
    Matrix.vecCons x u (2 : Fin 6) = u (1 : Fin 5) := rfl

@[simp] theorem consv6_3 {α : Type} (x : α) (u : Fin 5 → α) :
    Matrix.vecCons x u (3 : Fin 6) = u (2 : Fin 5) := rfl

@[simp] theorem consv6_4 {α : Type} (x : α) (u : Fin 5 → α) :
    Matrix.vecCons x u (4 : Fin 6) = u (3 : Fin 5) := rfl

@[simp] theorem consv6_5 {α : Type} (x : α) (u : Fin 5 → α) :
    Matrix.vecCons x u (5 : Fin 6) = u (4 : Fin 5) := rfl

@[simp] theorem consv7_1 {α : Type} (x : α) (u : Fin 6 → α) :
    Matrix.vecCons x u (1 : Fin 7) = u (0 : Fin 6) := rfl

@[simp] theorem consv7_2 {α : Type} (x : α) (u : Fin 6 → α) :
    Matrix.vecCons x u (2 : Fin 7) = u (1 : Fin 6) := rfl

@[simp] theorem consv7_3 {α : Type} (x : α) (u : Fin 6 → α) :
    Matrix.vecCons x u (3 : Fin 7) = u (2 : Fin 6) := rfl

@[simp] theorem consv7_4 {α : Type} (x : α) (u : Fin 6 → α) :
    Matrix.vecCons x u (4 : Fin 7) = u (3 : Fin 6) := rfl

@[simp] theorem consv7_5 {α : Type} (x : α) (u : Fin 6 → α) :
    Matrix.vecCons x u (5 : Fin 7) = u (4 : Fin 6) := rfl

@[simp] theorem consv7_6 {α : Type} (x : α) (u : Fin 6 → α) :
    Matrix.vecCons x u (6 : Fin 7) = u (5 : Fin 6) := rfl

@[simp] theorem consv8_1 {α : Type} (x : α) (u : Fin 7 → α) :
    Matrix.vecCons x u (1 : Fin 8) = u (0 : Fin 7) := rfl

@[simp] theorem consv8_2 {α : Type} (x : α) (u : Fin 7 → α) :
    Matrix.vecCons x u (2 : Fin 8) = u (1 : Fin 7) := rfl

@[simp] theorem consv8_3 {α : Type} (x : α) (u : Fin 7 → α) :
    Matrix.vecCons x u (3 : Fin 8) = u (2 : Fin 7) := rfl

@[simp] theorem consv8_4 {α : Type} (x : α) (u : Fin 7 → α) :
    Matrix.vecCons x u (4 : Fin 8) = u (3 : Fin 7) := rfl

@[simp] theorem consv8_5 {α : Type} (x : α) (u : Fin 7 → α) :
    Matrix.vecCons x u (5 : Fin 8) = u (4 : Fin 7) := rfl

@[simp] theorem consv8_6 {α : Type} (x : α) (u : Fin 7 → α) :
    Matrix.vecCons x u (6 : Fin 8) = u (5 : Fin 7) := rfl

@[simp] theorem consv8_7 {α : Type} (x : α) (u : Fin 7 → α) :
    Matrix.vecCons x u (7 : Fin 8) = u (6 : Fin 7) := rfl

@[simp] theorem consv9_1 {α : Type} (x : α) (u : Fin 8 → α) :
    Matrix.vecCons x u (1 : Fin 9) = u (0 : Fin 8) := rfl

@[simp] theorem consv9_2 {α : Type} (x : α) (u : Fin 8 → α) :
    Matrix.vecCons x u (2 : Fin 9) = u (1 : Fin 8) := rfl

@[simp] theorem consv9_3 {α : Type} (x : α) (u : Fin 8 → α) :
    Matrix.vecCons x u (3 : Fin 9) = u (2 : Fin 8) := rfl

@[simp] theorem consv9_4 {α : Type} (x : α) (u : Fin 8 → α) :
    Matrix.vecCons x u (4 : Fin 9) = u (3 : Fin 8) := rfl

@[simp] theorem consv9_5 {α : Type} (x : α) (u : Fin 8 → α) :
    Matrix.vecCons x u (5 : Fin 9) = u (4 : Fin 8) := rfl

@[simp] theorem consv9_6 {α : Type} (x : α) (u : Fin 8 → α) :
    Matrix.vecCons x u (6 : Fin 9) = u (5 : Fin 8) := rfl

@[simp] theorem consv9_7 {α : Type} (x : α) (u : Fin 8 → α) :
    Matrix.vecCons x u (7 : Fin 9) = u (6 : Fin 8) := rfl

@[simp] theorem consv9_8 {α : Type} (x : α) (u : Fin 8 → α) :
    Matrix.vecCons x u (8 : Fin 9) = u (7 : Fin 8) := rfl

/-- Shape-3 and 6x6 matrix types over the elasticity scalar field. -/
abbrev Mat3 : Type := Matrix (Fin 3) (Fin 3) Q2

/-- 6x6 stiffness/compliance matrices. -/
abbrev Mat6 : Type := Matrix (Fin 6) (Fin 6) Q2

/-- Symmetric-part 6-vectors. -/
abbrev Vec6 : Type := Fin 6 → Q2

/-- Full 9-component vectors of the tensor-data systems. -/
abbrev Vec9 : Type := Fin 9 → Q2

/-- The scalar one half (`0.5` in the source). -/
def half : Q2 := ⟨1 / 2, 0⟩

/-- Enum `MatrixComponentSystem` from `stiffness_matrix.py`. -/
inductive MatrixComponentSystem where
  | VOIGT_GAMMA
  | VOIGT_EPSILON
  | MANDEL
deriving DecidableEq

/-- Named tuple `_Scales = ("up_right", "low_left", "low_right")`. -/
structure Scales where
  up_right : Q2
  low_left : Q2
  low_right : Q2
deriving DecidableEq

/-- `vg_to_ve = _Scales(2.0, 1.0, 2.0)`. -/
def vg_to_ve : Scales := ⟨2, 1, 2⟩

/-- `vg_to_md = _Scales(_s2, _s2, 2.0)`. -/
def vg_to_md : Scales := ⟨sqrt2, sqrt2, 2⟩

/-- The `scales_dict` of `stiffness_matrix.py`: scale factors for a system
transition, `none` for a self-transition.  The source dictionary lists the
key `(ve, vg)` twice; the second entry (componentwise `1 / vg_to_ve`) wins
and is the one modelled. -/
def scales_dict (a b : MatrixComponentSystem) : Option Scales :=
  match a, b with
  | .VOIGT_GAMMA, .VOIGT_GAMMA => none
  | .VOIGT_GAMMA, .VOIGT_EPSILON => some vg_to_ve
  | .VOIGT_GAMMA, .MANDEL => some vg_to_md
  | .VOIGT_EPSILON, .VOIGT_EPSILON => none
  | .VOIGT_EPSILON, .VOIGT_GAMMA =>
      some ⟨inv2 vg_to_ve.up_right, inv2 vg_to_ve.low_left, inv2 vg_to_ve.low_right⟩
  | .VOIGT_EPSILON, .MANDEL =>
      some ⟨vg_to_md.up_right * inv2 vg_to_ve.up_right,
            vg_to_md.low_left * inv2 vg_to_ve.low_left,
            vg_to_md.low_right * inv2 vg_to_ve.low_right⟩
  | .MANDEL, .MANDEL => none
  | .MANDEL, .VOIGT_GAMMA =>
      some ⟨inv2 vg_to_md.up_right, inv2 vg_to_md.low_left, inv2 vg_to_md.low_right⟩
  | .MANDEL, .VOIGT_EPSILON =>
      some ⟨vg_to_ve.up_right * inv2 vg_to_md.up_right,
            vg_to_ve.low_left * inv2 vg_to_md.low_left,
            vg_to_ve.low_right * inv2 vg_to_md.low_right⟩

/-- `StiffnessMatrix._rescale_matrix`: scale the upper-right, lower-left and
lower-right 3x3 blocks by the given factors. -/
def rescaleMatrix (sc : Scales) (M : Mat6) : Mat6 :=
  Matrix.of fun i j =>
    if (i : ℕ) < 3 then
      (if (j : ℕ) < 3 then M i j else sc.up_right * M i j)
    else
      (if (j : ℕ) < 3 then sc.low_left * M i j else sc.low_right * M i j)

/-- Row-major linear index of the entry `(i, j)`, `i ≤ j`, in the upper
triangle of a 6x6 matrix (the layout of `np.triu_indices(6)`). -/
def utIndex (i j : ℕ) : ℕ := i * (13 - i) / 2 + (j - i)

/-- Indexing into the 21-value `cij` array (out-of-range reads, which never
happen for length-21 input, give 0). -/
def cijAt (l : List Q2) (n : ℕ) : Q2 := l.getD n 0

/-- `StiffnessMatrix._fill_cij`: scatter the 21 upper-triangle values into a
6x6 symmetric layout, mirroring into the lower triangle, except that under
`VOIGT_EPSILON` the lower-left 3x3 block is half the upper-right block. -/
def fillCij (cij : List Q2) (sys : MatrixComponentSystem) : Mat6 :=
  Matrix.of fun i j =>
    if (i : ℕ) ≤ (j : ℕ) then cijAt cij (utIndex i j)
    else if sys = .VOIGT_EPSILON ∧ 3 ≤ (i : ℕ) ∧ (j : ℕ) < 3 then
      half * cijAt cij (utIndex j i)
    else cijAt cij (utIndex j i)

/-- `StiffnessMatrix.__init__` (the `units` argument, handled by the `pint`
library in the source and orthogonal to this claim, is not modelled here; the
unit handling relevant to claim C5 has its own model below).  The `system`
argument is `Option`-valued: `some s` is an attribute of
`MatrixComponentSystem`, `none` stands for any other Python value, which the
membership test `system not in MatrixComponentSystem` rejects. -/
def stiffnessMatrixInit (cij : List Q2) (system : Option MatrixComponentSystem) :
    Except String Mat6 :=
  if cij.length ≠ 21 then .error "cij must have length 21"
  else
    match system with
    | none => .error "`system` must be an attribtue of MatrixComponentSystem"
    | some s => .ok (fillCij cij s)

/-- `BaseModuli._high_symmetry_matrix`: the 21-value upper triangle of a
block-diagonal stiffness matrix. -/
def highSymmetryMatrix (c11 c12 c13 c22 c23 c33 c44 c55 c66 : Q2) : List Q2 :=
  [c11, c12, c13, 0, 0, 0,
   c22, c23, 0, 0, 0,
   c33, 0, 0, 0,
   c44, 0, 0,
   c55, 0,
   c66]

/-- `VoigtSystem.to_components` for one matrix: six symmetric components
followed by three skew components, with factor `0.5` on the off-diagonal
entries. -/
def toComponentsVoigt (m : Mat3) : Vec9 :=
  ![m 0 0, m 1 1, m 2 2,
    half * (m 1 2 + m 2 1),
    half * (m 0 2 + m 2 0),
    half * (m 0 1 + m 1 0),
    half * (m 2 1 - m 1 2),
    half * (m 0 2 - m 2 0),
    half * (m 1 0 - m 0 1)]

/-- `VoigtSystem.to_matrices` for one component vector. -/
def toMatricesVoigt (cm : Vec9) : Mat3 :=
  !![cm 0, cm 5 - cm 8, cm 4 + cm 7;
     cm 8 + cm 5, cm 1, cm 3 - cm 6;
     cm 4 - cm 7, cm 6 + cm 3, cm 2]

/-- `MandelSystem.to_components` for one matrix (factor `1/√2` instead of
`0.5`). -/
def toComponentsMandel (m : Mat3) : Vec9 :=
  ![m 0 0, m 1 1, m 2 2,
    inv2 sqrt2 * (m 1 2 + m 2 1),
    inv2 sqrt2 * (m 0 2 + m 2 0),
    inv2 sqrt2 * (m 0 1 + m 1 0),
    inv2 sqrt2 * (m 2 1 - m 1 2),
    inv2 sqrt2 * (m 0 2 - m 2 0),
    inv2 sqrt2 * (m 1 0 - m 0 1)]

/-- `MandelSystem.to_matrices` for one component vector. -/
def toMatricesMandel (cm : Vec9) : Mat3 :=
  !![cm 0, inv2 sqrt2 * (cm 5 - cm 8), inv2 sqrt2 * (cm 4 + cm 7);
     inv2 sqrt2 * (cm 8 + cm 5), cm 1, inv2 sqrt2 * (cm 3 - cm 6);
     inv2 sqrt2 * (cm 4 - cm 7), inv2 sqrt2 * (cm 6 + cm 3), cm 2]

/-- The `.symm` property: the first six components. -/
def takeSymm (cm : Vec9) : Vec6 := ![cm 0, cm 1, cm 2, cm 3, cm 4, cm 5]

/-- Components `[symm, 0-skew]` built by `from_parts(symm=v)` (the skew part
defaults to zeros). -/
def extendSymm (v : Vec6) : Vec9 := ![v 0, v 1, v 2, v 3, v 4, v 5, 0, 0, 0]

/-- `VoigtSystem(m).symm`. -/
def symmVoigt (m : Mat3) : Vec6 := takeSymm (toComponentsVoigt m)

/-- `MandelSystem.to_components(m)[:6]`. -/
def symmMandel (m : Mat3) : Vec6 := takeSymm (toComponentsMandel m)

/-- `VoigtSystem.from_parts(symm=v).matrices` for one 6-vector. -/
def fromPartsSymmVoigt (v : Vec6) : Mat3 := toMatricesVoigt (extendSymm v)

/-- `MandelSystem.from_parts(symm=v).matrices` for one 6-vector. -/
def fromPartsSymmMandel (v : Vec6) : Mat3 := toMatricesMandel (extendSymm v)

/-! ### The single-crystal elastic model

Embeds `polycrystal/elasticity/single_crystal.py`.  Batches of 3x3 arrays
are lists of matrices (`_to_3d` reshaping a single matrix into a batch of
one is outside the batched model). -/

/-- `system_d` selection of `from_parts(symm=v).matrices`. -/
def sysFromSymm (sys : MatrixComponentSystem) (v : Vec6) : Mat3 :=
  match sys with
  | .MANDEL => fromPartsSymmMandel v
  | _ => fromPartsSymmVoigt v

/-- The ring ℤ[√2,√3]: `⟨a, b, c, d⟩` stands for `a + b√2 + c√3 + d√6`. -/
structure Zr23 where
  a : ℤ
  b : ℤ
  c : ℤ
  d : ℤ
deriving DecidableEq

namespace Zr23

/-- Multiplication, using √2·√2 = 2, √3·√3 = 3, √2·√3 = √6, √6·√6 = 6. -/
protected def mul (x y : Zr23) : Zr23 :=
  ⟨x.a * y.a + 2 * (x.b * y.b) + 3 * (x.c * y.c) + 6 * (x.d * y.d),
   x.a * y.b + x.b * y.a + 3 * (x.c * y.d) + 3 * (x.d * y.c),
   x.a * y.c + x.c * y.a + 2 * (x.b * y.d) + 2 * (x.d * y.b),
   x.a * y.d + x.d * y.a + x.b * y.c + x.c * y.b⟩

protected def add (x y : Zr23) : Zr23 := ⟨x.a + y.a, x.b + y.b, x.c + y.c, x.d + y.d⟩

protected def neg (x : Zr23) : Zr23 := ⟨-x.a, -x.b, -x.c, -x.d⟩

instance : Mul Zr23 := ⟨Zr23.mul⟩

instance : Add Zr23 := ⟨Zr23.add⟩

instance : Neg Zr23 := ⟨Zr23.neg⟩

instance : Zero Zr23 := ⟨⟨0, 0, 0, 0⟩⟩

instance : One Zr23 := ⟨⟨1, 0, 0, 0⟩⟩

@[simp] theorem mul_a (x y : Zr23) :
    (x * y).a = x.a * y.a + 2 * (x.b * y.b) + 3 * (x.c * y.c) + 6 * (x.d * y.d) := rfl

@[simp] theorem mul_b (x y : Zr23) :
    (x * y).b = x.a * y.b + x.b * y.a + 3 * (x.c * y.d) + 3 * (x.d * y.c) := rfl

@[simp] theorem mul_c (x y : Zr23) :
    (x * y).c = x.a * y.c + x.c * y.a + 2 * (x.b * y.d) + 2 * (x.d * y.b) := rfl

@[simp] theorem mul_d (x y : Zr23) :
    (x * y).d = x.a * y.d + x.d * y.a + x.b * y.c + x.c * y.b := rfl

@[simp] theorem add_a (x y : Zr23) : (x + y).a = x.a + y.a := rfl

@[simp] theorem add_b (x y : Zr23) : (x + y).b = x.b + y.b := rfl

@[simp] theorem add_c (x y : Zr23) : (x + y).c = x.c + y.c := rfl

@[simp] theorem add_d (x y : Zr23) : (x + y).d = x.d + y.d := rfl

@[simp] theorem neg_a (x : Zr23) : (-x).a = -x.a := rfl

@[simp] theorem neg_b (x : Zr23) : (-x).b = -x.b := rfl

@[simp] theorem neg_c (x : Zr23) : (-x).c = -x.c := rfl

@[simp] theorem neg_d (x : Zr23) : (-x).d = -x.d := rfl

@[simp] theorem zero_a : (0 : Zr23).a = 0 := rfl

@[simp] theorem zero_b : (0 : Zr23).b = 0 := rfl

@[simp] theorem zero_c : (0 : Zr23).c = 0 := rfl

@[simp] theorem zero_d : (0 : Zr23).d = 0 := rfl

@[simp] theorem one_a : (1 : Zr23).a = 1 := rfl

@[simp] theorem one_b : (1 : Zr23).b = 0 := rfl

@[simp] theorem one_c : (1 : Zr23).c = 0 := rfl

@[simp] theorem one_d : (1 : Zr23).d = 0 := rfl

@[ext] protected theorem ext_flat {x y : Zr23} (h1 : x.a = y.a) (h2 : x.b = y.b)
    (h3 : x.c = y.c) (h4 : x.d = y.d) : x = y := by
  cases x; cases y; cases h1; cases h2; cases h3; cases h4; rfl

instance : CommRing Zr23 where
  add := (· + ·)
  zero := 0
  neg := (- ·)
  mul := (· * ·)
  one := 1
  nsmul := nsmulRec
  zsmul := zsmulRec
  natCast n := ⟨n, 0, 0, 0⟩
  natCast_zero := by ext <;> simp
  natCast_succ := by intros; ext <;> simp
  add_assoc := by intros; ext <;> simp <;> ring
  zero_add := by intros; ext <;> simp
  add_zero := by intros; ext <;> simp
  add_comm := by intros; ext <;> simp <;> ring
  neg_add_cancel := by intros; ext <;> simp
  mul_assoc := by intros; ext <;> simp <;> ring
  one_mul := by intros; ext <;> simp
  mul_one := by intros; ext <;> simp
  left_distrib := by intros; ext <;> simp <;> ring
  right_distrib := by intros; ext <;> simp <;> ring
  mul_comm := by intros; ext <;> simp <;> ring
  zero_mul := by intros; ext <;> simp
  mul_zero := by intros; ext <;> simp

end Zr23

/-- The integer `n` as an element of ℤ[√2,√3]. -/
def zint (n : ℤ) : Zr23 := ⟨n, 0, 0, 0⟩

/-- The multiple `n√2`. -/
def zs2 (n : ℤ) : Zr23 := ⟨0, n, 0, 0⟩

/-- The multiple `n√3`. -/
def zs3 (n : ℤ) : Zr23 := ⟨0, 0, n, 0⟩

/-! ### Quaternions

Embeds `polycrystal/orientations/quaternions.py`.  A quaternion is a
4-vector (scalar part, vector part); arrays of quaternions are lists. -/

/-- A quaternion over a scalar ring `K`: scalar part `s`, vector part
`(x, y, z)`. -/
structure Quat (K : Type) where
  s : K
  x : K
  y : K
  z : K
deriving DecidableEq

/-- `multiply(q_1, q_2)` from `quaternions.py` for one pair:
`(s1·s2 − v1·v2, s1·v2 + s2·v1 + v1 × v2)`.  The source divides the result
by its Euclidean norm; on unit quaternions — the inputs of every claim
using it, per the module's unit-norm convention — the Hamilton product
already has unit norm (`qnormSq_qmult`), so that division is the identity
and no square root is needed in the embedding. -/
def qmult {K : Type} [CommRing K] (p q : Quat K) : Quat K :=
  ⟨p.s * q.s - (p.x * q.x + p.y * q.y + p.z * q.z),
   p.s * q.x + q.s * p.x + (p.y * q.z - p.z * q.y),
   p.s * q.y + q.s * p.y + (p.z * q.x - p.x * q.z),
   p.s * q.z + q.s * p.z + (p.x * q.y - p.y * q.x)⟩

/-- `inverse(q)` value for one quaternion: the conjugate (vector part
negated); the copy/mutation behaviour of the source function is modelled
separately for claim C10. -/
def qconj {K : Type} [CommRing K] (q : Quat K) : Quat K := ⟨q.s, -q.x, -q.y, -q.z⟩

/-- `identity()`: the quaternion `(1, 0, 0, 0)`. -/
def qident {K : Type} [CommRing K] : Quat K := ⟨1, 0, 0, 0⟩

/-- Componentwise negation of a quaternion (`-q` on a numpy array). -/
def qneg {K : Type} [CommRing K] (q : Quat K) : Quat K := ⟨-q.s, -q.x, -q.y, -q.z⟩

/-- Componentwise scaling of a quaternion. -/
def qsmul {K : Type} [CommRing K] (c : K) (q : Quat K) : Quat K :=
  ⟨c * q.s, c * q.x, c * q.y, c * q.z⟩

/-- The squared Euclidean norm of a quaternion. -/
def qnormSq {K : Type} [CommRing K] (q : Quat K) : K :=
  q.s * q.s + q.x * q.x + q.y * q.y + q.z * q.z

/-- Euler's four-square identity: the Hamilton product multiplies squared
norms, which is why the renormalization in `multiply` is the identity on
unit quaternions. -/
theorem qnormSq_qmult {K : Type} [CommRing K] (p q : Quat K) :
    qnormSq (qmult p q) = qnormSq p * qnormSq q := by
  simp only [qnormSq, qmult]; ring

@[ext] theorem Quat.ext {K : Type} {p q : Quat K} (h1 : p.s = q.s) (h2 : p.x = q.x)
    (h3 : p.y = q.y) (h4 : p.z = q.z) : p = q := by
  cases p; cases q; cases h1; cases h2; cases h3; cases h4; rfl

/-! ### Crystal symmetry group data

The quaternions of the five registered symmetry groups of
`crystalsymmetry.py`, stored DOUBLED (each list entry is twice the source
quaternion, making every component an integer combination of 1, √2, √3).
The groups over the working field are recovered by scaling with 1/2 below;
the doc comment of each list spells out the source values. -/

/-- Quaternion with integer components (`zint` of each argument). -/
def quI (a b c d : ℤ) : Quat Zr23 := ⟨zint a, zint b, zint c, zint d⟩

/-- Quaternion whose components are the given multiples of √2. -/
def quS2 (a b c d : ℤ) : Quat Zr23 := ⟨zs2 a, zs2 b, zs2 c, zs2 d⟩

/-- The zero quaternion, used as an out-of-range list default. -/
def quZ0 : Quat Zr23 := quI 0 0 0 0

/-- Doubled `identity` group: the source `_qident = [[1,0,0,0]]`. -/
def identityG2 : List (Quat Zr23) := [quI 2 0 0 0]

/-- Doubled `monoclinic` group: source rows `(1,0,0,0)`, `(0,0,1,0)`. -/
def monoclinicG2 : List (Quat Zr23) := [quI 2 0 0 0, quI 0 0 2 0]

/-- Doubled `orthorhombic` group: source rows `(1,0,0,0)`, `(0,1,0,0)`,
`(0,0,1,0)`, `(0,0,0,1)`. -/
def orthorhombicG2 : List (Quat Zr23) :=
  [quI 2 0 0 0, quI 0 2 0 0, quI 0 0 2 0, quI 0 0 0 2]

/-- Doubled `hexagonal` group.  Source rows (in order): `(1,0,0,0)`; the
c-axis rotations `(cos kπ/6, 0, 0, sin kπ/6)` for `k = 1..5`, i.e.
`(√3/2,0,0,1/2)`, `(1/2,0,0,√3/2)`, `(0,0,0,1)`, `(-1/2,0,0,√3/2)`,
`(-√3/2,0,0,1/2)`; then the binary rotations `(0,1,0,0)`,
`(0,√3/2,1/2,0)`, `(0,1/2,√3/2,0)`, `(0,0,1,0)`, `(0,-1/2,√3/2,0)`,
`(0,-√3/2,1/2,0)`.  Every entry below is twice that value. -/
def hexagonalG2 : List (Quat Zr23) :=
  [quI 2 0 0 0,
   ⟨zs3 1, 0, 0, zint 1⟩,
   ⟨zint 1, 0, 0, zs3 1⟩,
   quI 0 0 0 2,
   ⟨zint (-1), 0, 0, zs3 1⟩,
   ⟨zs3 (-1), 0, 0, zint 1⟩,
   quI 0 2 0 0,
   ⟨0, zs3 1, zint 1, 0⟩,
   ⟨0, zint 1, zs3 1, 0⟩,
   quI 0 0 2 0,
   ⟨0, zint (-1), zs3 1, 0⟩,
   ⟨0, zs3 (-1), zint 1, 0⟩]

/-- Doubled `cubic` group.  Source rows (in order): `(1,0,0,0)`; rotations
about `[1,0,0]`, `[0,1,0]`, `[0,0,1]` by `kπ/4`, `k = 1,2,3`, e.g.
`(√2/2,√2/2,0,0)`, `(0,1,0,0)`, `(-√2/2,√2/2,0,0)`; rotations by `±2π/3`
about the four body diagonals, with components `±1/2`; and the six binary
rotations with components `±√2/2`.  Every entry below is twice that
value. -/
def cubicG2 : List (Quat Zr23) :=
  [quI 2 0 0 0,
   quS2 1 1 0 0, quI 0 2 0 0, quS2 (-1) 1 0 0,
   quS2 1 0 1 0, quI 0 0 2 0, quS2 (-1) 0 1 0,
   quS2 1 0 0 1, quI 0 0 0 2, quS2 (-1) 0 0 1,
   quI (-1) 1 1 1, quI (-1) (-1) (-1) (-1),
   quI (-1) (-1) 1 1, quI (-1) 1 (-1) (-1),
   quI (-1) (-1) (-1) 1, quI (-1) 1 1 (-1),
   quI (-1) 1 (-1) 1, quI (-1) (-1) 1 (-1),
   quS2 0 1 1 0, quS2 0 (-1) 1 0, quS2 0 1 0 1,
   quS2 0 0 1 1, quS2 0 (-1) 0 1, quS2 0 0 (-1) 1]

/-! ### Kernel-efficient group computations

The Hamilton product, doubling and negation written directly on the flat
integer representation (avoiding typeclass indirection, so that the group
multiplication table can be checked by kernel reduction), together with
lemmas identifying them with the generic operations. -/

/-- The Hamilton product on ℤ[√2,√3]-quaternions, componentwise identical to
`qmult` (see `hamZ_eq_qmult`). -/
def hamZ (p q : Quat Zr23) : Quat Zr23 :=
  ⟨Zr23.add (Zr23.mul p.s q.s)
     (Zr23.neg (Zr23.add (Zr23.add (Zr23.mul p.x q.x) (Zr23.mul p.y q.y)) (Zr23.mul p.z q.z))),
   Zr23.add (Zr23.add (Zr23.mul p.s q.x) (Zr23.mul q.s p.x))
     (Zr23.add (Zr23.mul p.y q.z) (Zr23.neg (Zr23.mul p.z q.y))),
   Zr23.add (Zr23.add (Zr23.mul p.s q.y) (Zr23.mul q.s p.y))
     (Zr23.add (Zr23.mul p.z q.x) (Zr23.neg (Zr23.mul p.x q.z))),
   Zr23.add (Zr23.add (Zr23.mul p.s q.z) (Zr23.mul q.s p.z))
     (Zr23.add (Zr23.mul p.x q.y) (Zr23.neg (Zr23.mul p.y q.x)))⟩

/-- Doubling on the flat representation. -/
def qdoubleZ (q : Quat Zr23) : Quat Zr23 :=
  ⟨Zr23.add q.s q.s, Zr23.add q.x q.x, Zr23.add q.y q.y, Zr23.add q.z q.z⟩

/-- Negation on the flat representation. -/
def qnegZ (q : Quat Zr23) : Quat Zr23 :=
  ⟨Zr23.neg q.s, Zr23.neg q.x, Zr23.neg q.y, Zr23.neg q.z⟩

/-- One entry of a group multiplication-table check: the table entry `v`
names an index and a sign such that the product of `p` and `s` is the
(sign-adjusted) doubled group element at that index. -/
def prodEntryChk (G : List (Quat Zr23)) (p s : Quat Zr23) (v : Bool × Nat) : Bool :=
  decide (v.2 < G.length) &&
    decide (hamZ p s =
      (if v.1 then qdoubleZ (G.getD v.2 quZ0) else qnegZ (qdoubleZ (G.getD v.2 quZ0))))

/-- One table row: the products of `p` with each element of `S`, matched
against the corresponding table entries. -/
def rowCheck (G : List (Quat Zr23)) (p : Quat Zr23) :
    List (Quat Zr23) → List (Bool × Nat) → Bool
  | [], [] => true
  | s :: ss, v :: vs => prodEntryChk G p s v && rowCheck G p ss vs
  | _, _ => false

/-- Full multiplication-table check for a doubled group list `G`: one row
per element, one entry per pair. -/
def closureCheck (G : List (Quat Zr23)) :
    List (Quat Zr23) → List (List (Bool × Nat)) → Bool
  | [], [] => true
  | p :: ps, row :: rows => rowCheck G p G row && closureCheck G ps rows
  | _, _ => false

theorem prodEntryChk_sound (G : List (Quat Zr23)) (p s : Quat Zr23) (v : Bool × Nat)
    (h : prodEntryChk G p s v = true) :
    ∃ t ∈ G, hamZ p s = qdoubleZ t ∨ hamZ p s = qnegZ (qdoubleZ t) := by
  simp only [prodEntryChk, Bool.and_eq_true, decide_eq_true_eq] at h
  obtain ⟨hk, heq⟩ := h
  refine ⟨G.getD v.2 quZ0, ?_, ?_⟩
  · rw [List.getD_eq_getElem G quZ0 hk]
    exact List.getElem_mem hk
  · by_cases hb : v.1
    · left; rw [heq, if_pos hb]
    · right; rw [heq, if_neg hb]

theorem rowCheck_sound (G : List (Quat Zr23)) (p : Quat Zr23) :
    ∀ (S : List (Quat Zr23)) (R : List (Bool × Nat)), rowCheck G p S R = true →
      ∀ s ∈ S, ∃ t ∈ G, hamZ p s = qdoubleZ t ∨ hamZ p s = qnegZ (qdoubleZ t) := by
  intro S
  induction S with
  | nil => intro R _ s hs; exact absurd hs (List.not_mem_nil s)
  | cons s0 ss ih =>
      intro R h s hs
      match R, h with
      | v :: vs, h =>
          rw [rowCheck, Bool.and_eq_true] at h
          rcases List.mem_cons.mp hs with rfl | hmem
          · exact prodEntryChk_sound G p s v h.1
          · exact ih vs h.2 s hmem

/-- A successful table check certifies closure of the doubled group under
the Hamilton product: the product of two doubled elements is, up to sign,
twice a doubled element. -/
theorem closure_of_check (G : List (Quat Zr23)) (tbl : List (List (Bool × Nat)))
    (h : closureCheck G G tbl = true) :
    ∀ p ∈ G, ∀ s ∈ G, ∃ t ∈ G,
      hamZ p s = qdoubleZ t ∨ hamZ p s = qnegZ (qdoubleZ t) := by
  suffices H : ∀ (P : List (Quat Zr23)) (T : List (List (Bool × Nat))),
      closureCheck G P T = true →
      ∀ p ∈ P, ∀ s ∈ G, ∃ t ∈ G, hamZ p s = qdoubleZ t ∨ hamZ p s = qnegZ (qdoubleZ t) by
    exact H G tbl h
  intro P
  induction P with
  | nil => intro T _ p hp; exact absurd hp (List.not_mem_nil p)
  | cons p0 ps ih =>
      intro T h p hp
      match T, h with
      | row :: rows, h =>
          rw [closureCheck, Bool.and_eq_true] at h
          rcases List.mem_cons.mp hp with rfl | hmem
          · exact rowCheck_sound G p G row h.1
          · exact ih rows h.2 p hmem

/-! ### Decided group facts

The multiplication structure of each registered group, checked by kernel
computation on the doubled integer quaternions. -/

/-- Conjugation on the flat representation. -/
def qconjZ (q : Quat Zr23) : Quat Zr23 :=
  ⟨q.s, Zr23.neg q.x, Zr23.neg q.y, Zr23.neg q.z⟩

/-- Squared norm on the flat representation. -/
def qnormSqZ (q : Quat Zr23) : Zr23 :=
  Zr23.add (Zr23.add (Zr23.add (Zr23.mul q.s q.s) (Zr23.mul q.x q.x)) (Zr23.mul q.y q.y))
    (Zr23.mul q.z q.z)

/-- The multiplication table of the doubled cubic group: entry `(i, j)`
gives the sign and index `k` with `q_i · q_j = ±q_k`. -/
def cubicTbl : List (List (Bool × Nat)) := [
  [(true, 0), (true, 1), (true, 2), (true, 3), (true, 4), (true, 5), (true, 6), (true, 7), (true, 8), (true, 9), (true, 10), (true, 11), (true, 12), (true, 13), (true, 14), (true, 15), (true, 16), (true, 17), (true, 18), (true, 19), (true, 20), (true, 21), (true, 22), (true, 23)],
  [(true, 1), (true, 2), (true, 3), (false, 0), (false, 11), (true, 21), (true, 12), (false, 17), (true, 23), (true, 14), (true, 9), (false, 20), (true, 22), (false, 7), (false, 18), (true, 6), (false, 4), (true, 19), (true, 10), (false, 13), (true, 16), (true, 8), (false, 15), (false, 5)],
  [(true, 2), (true, 3), (false, 0), (false, 1), (true, 20), (true, 8), (true, 22), (false, 19), (false, 5), (false, 18), (true, 14), (false, 16), (false, 15), (true, 17), (false, 10), (true, 12), (true, 11), (false, 13), (true, 9), (true, 7), (false, 4), (true, 23), (false, 6), (false, 21)],
  [(true, 3), (false, 0), (false, 1), (false, 2), (true, 16), (true, 23), (false, 15), (true, 13), (false, 21), (false, 10), (false, 18), (true, 4), (false, 6), (true, 19), (false, 9), (true, 22), (false, 20), (true, 7), (true, 14), (false, 17), (true, 11), (false, 5), (false, 12), (false, 8)],
  [(true, 4), (false, 14), (false, 22), (true, 13), (true, 5), (true, 6), (false, 0), (false, 11), (true, 20), (true, 16), (true, 3), (false, 18), (true, 9), (false, 21), (true, 23), (false, 7), (false, 19), (false, 1), (true, 15), (true, 12), (true, 2), (true, 10), (true, 8), (false, 17)],
  [(true, 5), (false, 23), (false, 8), (false, 21), (true, 6), (false, 0), (false, 4), (true, 18), (true, 2), (false, 19), (true, 13), (false, 15), (true, 16), (false, 10), (false, 17), (true, 11), (false, 12), (true, 14), (false, 7), (true, 9), (false, 22), (true, 3), (true, 20), (true, 1)],
  [(true, 6), (true, 17), (false, 20), (false, 10), (false, 0), (false, 4), (false, 5), (true, 15), (false, 22), (false, 12), (false, 21), (true, 7), (false, 19), (false, 3), (true, 1), (false, 18), (false, 9), (true, 23), (true, 11), (true, 16), (false, 8), (true, 13), (true, 2), (false, 14)],
  [(true, 7), (false, 11), (true, 18), (true, 15), (false, 13), (true, 19), (true, 17), (true, 8), (true, 9), (false, 0), (true, 6), (false, 21), (false, 1), (false, 22), (false, 4), (false, 23), (true, 3), (false, 20), (true, 5), (false, 2), (true, 10), (true, 12), (true, 14), (true, 16)],
  [(true, 8), (true, 21), (true, 5), (false, 23), (true, 22), (false, 2), (false, 20), (true, 9), (false, 0), (false, 7), (true, 17), (false, 12), (true, 11), (false, 14), (true, 13), (false, 16), (true, 15), (false, 10), (true, 19), (false, 18), (true, 6), (false, 1), (false, 4), (true, 3)],
  [(true, 9), (true, 12), (true, 19), (false, 16), (true, 14), (false, 18), (false, 10), (false, 0), (false, 7), (false, 8), (false, 20), (true, 1), (false, 21), (true, 4), (false, 22), (false, 3), (false, 23), (false, 6), (false, 2), (false, 5), (true, 17), (true, 11), (true, 13), (true, 15)],
  [(true, 10), (true, 6), (true, 17), (false, 20), (true, 9), (true, 14), (false, 18), (true, 3), (true, 13), (false, 21), (true, 11), (true, 0), (false, 5), (false, 16), (false, 12), (false, 2), (false, 8), (false, 15), (false, 1), (true, 23), (false, 7), (false, 4), (false, 19), (false, 22)],
  [(true, 11), (false, 18), (false, 15), (true, 7), (false, 21), (false, 12), (true, 1), (false, 20), (false, 16), (true, 4), (true, 0), (true, 10), (false, 14), (true, 8), (true, 5), (false, 17), (false, 13), (true, 2), (false, 6), (false, 22), (false, 3), (false, 9), (false, 23), (true, 19)],
  [(true, 12), (true, 19), (false, 16), (false, 9), (false, 1), (true, 11), (false, 21), (true, 6), (true, 15), (false, 22), (false, 8), (false, 17), (true, 13), (true, 0), (true, 2), (false, 10), (false, 14), (false, 5), (false, 20), (false, 4), (false, 23), (false, 7), (true, 3), (true, 18)],
  [(true, 13), (false, 4), (true, 14), (true, 22), (false, 19), (false, 17), (true, 7), (false, 21), (false, 10), (false, 3), (false, 15), (true, 5), (true, 0), (true, 12), (false, 16), (true, 8), (false, 2), (false, 11), (true, 23), (true, 1), (false, 18), (false, 6), (false, 9), (false, 20)],
  [(true, 14), (true, 22), (false, 13), (true, 4), (false, 18), (false, 10), (false, 9), (false, 1), (true, 17), (false, 23), (false, 16), (true, 2), (false, 8), (false, 11), (true, 15), (true, 0), (true, 5), (false, 12), (false, 3), (false, 21), (true, 19), (false, 20), (false, 7), (true, 6)],
  [(true, 15), (false, 7), (true, 11), (false, 18), (true, 3), (true, 16), (true, 23), (false, 22), (false, 12), (false, 6), (false, 5), (false, 13), (false, 17), (false, 2), (true, 0), (true, 14), (false, 10), (true, 8), (false, 4), (true, 20), (false, 21), (false, 19), (true, 1), (false, 9)],
  [(true, 16), (true, 9), (true, 12), (true, 19), (true, 23), (false, 15), (false, 3), (false, 4), (true, 11), (false, 20), (false, 2), (false, 14), (false, 10), (true, 5), (false, 8), (false, 13), (true, 17), (true, 0), (true, 22), (false, 6), (false, 1), (false, 18), (false, 21), (false, 7)],
  [(true, 17), (false, 20), (false, 10), (false, 6), (false, 7), (true, 13), (false, 19), (false, 23), (false, 14), (true, 1), (false, 12), (true, 8), (true, 2), (false, 15), (false, 11), (false, 5), (true, 0), (true, 16), (false, 21), (true, 3), (false, 9), (false, 22), (true, 18), (true, 4)],
  [(true, 18), (true, 15), (false, 7), (true, 11), (true, 10), (true, 9), (true, 14), (true, 2), (false, 19), (false, 5), (false, 4), (false, 3), (true, 23), (false, 20), (false, 6), (false, 1), (false, 21), (true, 22), (false, 0), (true, 8), (true, 13), (true, 16), (false, 17), (false, 12)],
  [(true, 19), (false, 16), (false, 9), (false, 12), (true, 17), (false, 7), (true, 13), (true, 5), (true, 18), (true, 2), (false, 22), (true, 23), (true, 3), (false, 6), (true, 20), (false, 21), (true, 1), (false, 4), (false, 8), (false, 0), (false, 14), (true, 15), (true, 10), (false, 11)],
  [(true, 20), (true, 10), (true, 6), (true, 17), (true, 8), (true, 22), (false, 2), (true, 16), (false, 4), (true, 11), (false, 1), (false, 9), (false, 18), (false, 23), (false, 21), (true, 19), (false, 7), (false, 3), (true, 12), (false, 15), (false, 0), (true, 14), (false, 5), (true, 13)],
  [(true, 21), (true, 5), (false, 23), (false, 8), (true, 12), (false, 1), (true, 11), (true, 10), (true, 3), (true, 13), (false, 7), (false, 6), (false, 4), (false, 9), (false, 19), (false, 20), (false, 22), (false, 18), (true, 17), (true, 14), (true, 15), (false, 0), (true, 16), (true, 2)],
  [(true, 22), (false, 13), (true, 4), (false, 14), (false, 2), (false, 20), (false, 8), (true, 12), (true, 6), (true, 15), (false, 23), (false, 19), (false, 7), (true, 1), (true, 3), (false, 9), (true, 18), (false, 21), (false, 16), (true, 11), (true, 5), (true, 17), (false, 0), (true, 10)],
  [(true, 23), (true, 8), (true, 21), (true, 5), (false, 15), (false, 3), (false, 16), (true, 14), (false, 1), (true, 17), (true, 19), (false, 22), (false, 20), (true, 18), (false, 7), (true, 4), (true, 6), (false, 9), (false, 13), (false, 10), (true, 12), (false, 2), (true, 11), (false, 0)]]

/-- The doubled cubic group is closed under the Hamilton product up to sign
(each product of doubled elements is twice a doubled element, up to sign). -/
theorem cubicG2_closure : ∀ p ∈ cubicG2, ∀ s ∈ cubicG2, ∃ t ∈ cubicG2,
    hamZ p s = qdoubleZ t ∨ hamZ p s = qnegZ (qdoubleZ t) :=
  closure_of_check cubicG2 cubicTbl (by decide)

/-- Closure of the doubled hexagonal group. -/
theorem hexagonalG2_closure : ∀ p ∈ hexagonalG2, ∀ s ∈ hexagonalG2, ∃ t ∈ hexagonalG2,
    hamZ p s = qdoubleZ t ∨ hamZ p s = qnegZ (qdoubleZ t) := by decide

/-- Closure of the doubled orthorhombic group. -/
theorem orthorhombicG2_closure : ∀ p ∈ orthorhombicG2, ∀ s ∈ orthorhombicG2,
    ∃ t ∈ orthorhombicG2, hamZ p s = qdoubleZ t ∨ hamZ p s = qnegZ (qdoubleZ t) := by decide

/-- Closure of the doubled monoclinic group. -/
theorem monoclinicG2_closure : ∀ p ∈ monoclinicG2, ∀ s ∈ monoclinicG2,
    ∃ t ∈ monoclinicG2, hamZ p s = qdoubleZ t ∨ hamZ p s = qnegZ (qdoubleZ t) := by decide

/-- Closure of the trivial group. -/
theorem identityG2_closure : ∀ p ∈ identityG2, ∀ s ∈ identityG2,
    ∃ t ∈ identityG2, hamZ p s = qdoubleZ t ∨ hamZ p s = qnegZ (qdoubleZ t) := by decide

/-- Every doubled group element has squared norm 4 (each source quaternion
is a unit quaternion). -/
theorem cubicG2_unit : ∀ p ∈ cubicG2, qnormSqZ p = zint 4 := by decide

theorem hexagonalG2_unit : ∀ p ∈ hexagonalG2, qnormSqZ p = zint 4 := by decide

theorem orthorhombicG2_unit : ∀ p ∈ orthorhombicG2, qnormSqZ p = zint 4 := by decide

theorem monoclinicG2_unit : ∀ p ∈ monoclinicG2, qnormSqZ p = zint 4 := by decide

theorem identityG2_unit : ∀ p ∈ identityG2, qnormSqZ p = zint 4 := by decide

/-- Each doubled group contains the conjugate of each of its elements up to
sign (the groups are closed under inversion). -/
theorem cubicG2_conj : ∀ p ∈ cubicG2, ∃ t ∈ cubicG2,
    qconjZ p = t ∨ qconjZ p = qnegZ t := by decide

theorem hexagonalG2_conj : ∀ p ∈ hexagonalG2, ∃ t ∈ hexagonalG2,
    qconjZ p = t ∨ qconjZ p = qnegZ t := by decide

theorem orthorhombicG2_conj : ∀ p ∈ orthorhombicG2, ∃ t ∈ orthorhombicG2,
    qconjZ p = t ∨ qconjZ p = qnegZ t := by decide

theorem monoclinicG2_conj : ∀ p ∈ monoclinicG2, ∃ t ∈ monoclinicG2,
    qconjZ p = t ∨ qconjZ p = qnegZ t := by decide

theorem identityG2_conj : ∀ p ∈ identityG2, ∃ t ∈ identityG2,
    qconjZ p = t ∨ qconjZ p = qnegZ t := by decide

/-! ### Quaternion algebra lemmas (generic scalar ring) -/

section QuatAlgebra

variable {K : Type} [CommRing K]

theorem qmult_qident_right (q : Quat K) : qmult q qident = q := by
  ext <;> simp [qmult, qident] <;> ring

theorem qmult_assoc (p q r : Quat K) : qmult (qmult p q) r = qmult p (qmult q r) := by
  ext <;> simp [qmult] <;> ring

theorem qmult_qneg_left (p q : Quat K) : qmult (qneg p) q = qneg (qmult p q) := by
  ext <;> simp [qmult, qneg] <;> ring

theorem qmult_qneg_right (p q : Quat K) : qmult p (qneg q) = qneg (qmult p q) := by
  ext <;> simp [qmult, qneg] <;> ring

theorem qmult_qsmul_left (c : K) (p q : Quat K) :
    qmult (qsmul c p) q = qsmul c (qmult p q) := by
  ext <;> simp [qmult, qsmul] <;> ring

theorem qmult_qsmul_right (c : K) (p q : Quat K) :
    qmult p (qsmul c q) = qsmul c (qmult p q) := by
  ext <;> simp [qmult, qsmul] <;> ring

theorem qsmul_qsmul (a b : K) (p : Quat K) : qsmul a (qsmul b p) = qsmul (a * b) p := by
  ext <;> simp [qsmul] <;> ring

theorem qneg_qsmul (c : K) (p : Quat K) : qneg (qsmul c p) = qsmul c (qneg p) := by
  ext <;> simp [qneg, qsmul] <;> ring

theorem qconj_qsmul (c : K) (p : Quat K) : qconj (qsmul c p) = qsmul c (qconj p) := by
  ext <;> simp [qconj, qsmul] <;> ring

theorem qnormSq_qsmul (c : K) (p : Quat K) : qnormSq (qsmul c p) = c * c * qnormSq p := by
  simp only [qnormSq, qsmul]; ring

theorem qnormSq_qneg (p : Quat K) : qnormSq (qneg p) = qnormSq p := by
  simp only [qnormSq, qneg]; ring

theorem qmult_qconj_self (q : Quat K) : qmult q (qconj q) = ⟨qnormSq q, 0, 0, 0⟩ := by
  ext <;> simp only [qmult, qconj, qnormSq] <;> ring

end QuatAlgebra

/-! ### Reduction to the fundamental region

Embeds `CrystalSymmetry.to_fundamental_region` of
`polycrystal/orientations/crystalsymmetry.py` over an ordered scalar field. -/

section FundamentalRegion

variable {K : Type} [LinearOrderedField K]

/-- The stable argmax of `np.abs(qeqv[:, 0]).argmax()` as a left fold:
starting from the first candidate, replace the current best only on a
strictly larger absolute scalar part (so the first index attaining the
maximum wins, as with numpy's `argmax`). -/
def pickMax (b : Quat K) (l : List (Quat K)) : Quat K :=
  l.foldl (fun acc p => if |acc.s| < |p.s| then p else acc) b

/-- `to_fundamental_region` for a single quaternion: multiply by every
symmetry-group quaternion, pick the equivalent with maximal absolute scalar
part, then flip the sign if the scalar part is negative.  (The `[]` branch
is unreachable: every registered group is nonempty.) -/
def to_fundamental_region1 (Gq : List (Quat K)) (q : Quat K) : Quat K :=
  match Gq.map (fun sq => qmult q sq) with
  | [] => q
  | qeqv0 :: qeqvrest =>
      let qfr := pickMax qeqv0 qeqvrest
      if qfr.s < 0 then qneg qfr else qfr

/-- `to_fundamental_region` on an array of quaternions (the source loop over
rows). -/
def to_fundamental_region (Gq : List (Quat K)) (qs : List (Quat K)) : List (Quat K) :=
  qs.map (to_fundamental_region1 Gq)

theorem pickMax_eq_or_mem (b : Quat K) (l : List (Quat K)) :
    pickMax b l = b ∨ pickMax b l ∈ l := by
  induction l generalizing b with
  | nil => exact Or.inl rfl
  | cons p l ih =>
      rw [pickMax, List.foldl_cons]
      rcases ih (if |b.s| < |p.s| then p else b) with h | h
      · rw [pickMax] at h
        rw [h]
        split
        · exact Or.inr (List.mem_cons_self p l)
        · exact Or.inl rfl
      · exact Or.inr (List.mem_cons_of_mem p h)

theorem pickMax_ge_start (b : Quat K) (l : List (Quat K)) :
    |b.s| ≤ |(pickMax b l).s| := by
  induction l generalizing b with
  | nil => exact le_refl _
  | cons p l ih =>
      rw [pickMax, List.foldl_cons]
      refine le_trans ?_ (ih (if |b.s| < |p.s| then p else b))
      split
      · next h => exact le_of_lt h
      · exact le_refl _

theorem pickMax_ge_mem (b : Quat K) (l : List (Quat K)) :
    ∀ p ∈ l, |p.s| ≤ |(pickMax b l).s| := by
  induction l generalizing b with
  | nil => intro p hp; exact absurd hp (List.not_mem_nil p)
  | cons p0 l ih =>
      intro p hp
      rw [pickMax, List.foldl_cons]
      rcases List.mem_cons.mp hp with rfl | hmem
      · refine le_trans ?_ (pickMax_ge_start _ l)
        split
        · exact le_refl _
        · next h => exact le_of_not_lt h
      · exact ih _ p hmem

theorem pickMax_stable (b : Quat K) (l : List (Quat K))
    (h : ∀ p ∈ l, ¬(|b.s| < |p.s|)) : pickMax b l = b := by
  induction l with
  | nil => rfl
  | cons p l ih =>
      rw [pickMax, List.foldl_cons, if_neg (h p (List.mem_cons_self p l))]
      exact ih fun p hp => h p (List.mem_cons_of_mem _ hp)

/-- The abstract facts about a symmetry-group quaternion list that drive
`to_fundamental_region`: the identity is listed first, the list is closed
under the Hamilton product and under conjugation up to sign, and every
element is a unit quaternion. -/
structure GroupFacts (G : List (Quat K)) : Prop where
  head : ∃ rest, G = qident :: rest
  closure : ∀ p ∈ G, ∀ s ∈ G, ∃ t ∈ G, qmult p s = t ∨ qmult p s = qneg t
  unit : ∀ p ∈ G, qnormSq p = 1
  conj_mem : ∀ p ∈ G, ∃ t ∈ G, qconj p = t ∨ qconj p = qneg t

/-- Specification of one reduction step: the result is one of the
symmetry-equivalents of `q` up to sign, has nonnegative scalar part, and its
absolute scalar part dominates every equivalent. -/
theorem tofr1_spec (G : List (Quat K)) (rest : List (Quat K)) (hG : G = qident :: rest)
    (q : Quat K) :
    ∃ s0 ∈ G,
      (to_fundamental_region1 G q = qmult q s0 ∨
        to_fundamental_region1 G q = qneg (qmult q s0)) ∧
      0 ≤ (to_fundamental_region1 G q).s ∧
      ∀ s ∈ G, |(qmult q s).s| ≤ |(to_fundamental_region1 G q).s| := by
  subst hG
  simp only [to_fundamental_region1, List.map_cons]
  set b := pickMax (qmult q qident) (rest.map fun sq => qmult q sq) with hb
  have hbmem : ∃ s0 ∈ qident :: rest, b = qmult q s0 := by
    rcases pickMax_eq_or_mem (qmult q qident) (rest.map fun sq => qmult q sq) with h | h
    · exact ⟨qident, List.mem_cons_self _ _, h⟩
    · rcases List.mem_map.mp h with ⟨s0, hs0, hs0e⟩
      exact ⟨s0, List.mem_cons_of_mem _ hs0, hs0e.symm⟩
  have hbmax : ∀ s ∈ qident :: rest, |(qmult q s).s| ≤ |b.s| := by
    intro s hs
    rcases List.mem_cons.mp hs with rfl | hmem
    · exact pickMax_ge_start _ _
    · exact pickMax_ge_mem _ _ _ (List.mem_map_of_mem _ hmem)
  obtain ⟨s0, hs0, hbeq⟩ := hbmem
  refine ⟨s0, hs0, ?_, ?_, ?_⟩
  · split
    · exact Or.inr (by rw [hbeq])
    · exact Or.inl (by rw [hbeq])
  · split
    · next h => simp only [qneg]; linarith
    · next h => exact le_of_not_lt h
  · intro s hs
    split
    · next h => simpa [qneg, abs_neg] using hbmax s hs
    · exact hbmax s hs

/-- Idempotence of the single-quaternion reduction, given the group facts. -/
theorem tofr1_idem (G : List (Quat K)) (hf : GroupFacts G) (q : Quat K) :
    to_fundamental_region1 G (to_fundamental_region1 G q) =
      to_fundamental_region1 G q := by
  obtain ⟨rest, hG⟩ := hf.head
  obtain ⟨s0, hs0, hcase, hpos, hmax⟩ := tofr1_spec G rest hG q
  set r := to_fundamental_region1 G q with hr
  have hstep : ∀ s ∈ G, |(qmult r s).s| ≤ |r.s| := by
    intro s hs
    obtain ⟨t, ht, htcase⟩ := hf.closure s0 hs0 s hs
    have key : qmult r s = qmult q t ∨ qmult r s = qneg (qmult q t) := by
      rcases hcase with hc | hc
      · rw [hc, qmult_assoc]
        rcases htcase with h | h
        · rw [h]; exact Or.inl rfl
        · rw [h, qmult_qneg_right]; exact Or.inr rfl
      · rw [hc, qmult_qneg_left, qmult_assoc]
        rcases htcase with h | h
        · rw [h]; exact Or.inr rfl
        · rw [h, qmult_qneg_right]
          exact Or.inl (by ext <;> simp [qneg])
    rcases key with h | h
    · rw [h]; exact hmax t ht
    · rw [h]
      simpa [qneg, abs_neg] using hmax t ht
  conv_lhs => rw [hG]
  simp only [to_fundamental_region1, List.map_cons]
  rw [qmult_qident_right]
  have hstable : pickMax r (rest.map fun sq => qmult r sq) = r := by
    apply pickMax_stable
    intro p hp
    rcases List.mem_map.mp hp with ⟨s, hs, rfl⟩
    exact not_lt.mpr (hstep s (hG ▸ List.mem_cons_of_mem _ hs))
  rw [hstable, if_neg (not_lt.mpr hpos)]

/-- A quaternion can have absolute scalar part at most its norm. -/
theorem scalar_sq_le_qnormSq (v : Quat K) : v.s * v.s ≤ qnormSq v := by
  have h1 := mul_self_nonneg v.x
  have h2 := mul_self_nonneg v.y
  have h3 := mul_self_nonneg v.z
  simp only [qnormSq]
  nlinarith

/-- The reduction maps each group element to the identity quaternion. -/
theorem tofr1_mem_ident (G : List (Quat K)) (hf : GroupFacts G) (q : Quat K)
    (hq : q ∈ G) : to_fundamental_region1 G q = qident := by
  obtain ⟨rest, hG⟩ := hf.head
  obtain ⟨s0, hs0, hcase, hpos, hmax⟩ := tofr1_spec G rest hG q
  set r := to_fundamental_region1 G q with hr
  have hqs : ∀ s ∈ G, qnormSq (qmult q s) = 1 := by
    intro s hs
    rw [qnormSq_qmult, hf.unit q hq, hf.unit s hs, one_mul]
  have hub : ∀ s ∈ G, |(qmult q s).s| ≤ 1 := by
    intro s hs
    apply abs_le_one_iff_mul_self_le_one.mpr
    calc (qmult q s).s * (qmult q s).s
        ≤ qnormSq (qmult q s) := scalar_sq_le_qnormSq _
    _ = 1 := hqs s hs
  obtain ⟨t, ht, htc⟩ := hf.conj_mem q hq
  have hw : |(qmult q t).s| = 1 := by
    rcases htc with h | h
    · rw [← h, qmult_qconj_self, hf.unit q hq]
      exact abs_one
    · have : t = qneg (qconj q) := by
        rw [h]; ext <;> simp [qneg]
      rw [this, qmult_qneg_right, qmult_qconj_self, hf.unit q hq]
      simp [qneg]
  have h1 : |r.s| = 1 := by
    refine le_antisymm ?_ ?_
    · rcases hcase with hc | hc
      · rw [hc]; exact hub s0 hs0
      · rw [hc]; simpa [qneg, abs_neg] using hub s0 hs0
    · rw [← hw]; exact hmax t ht
  have hrs1 : r.s = 1 := by
    rcases (abs_eq (zero_le_one)).mp h1 with h | h
    · exact h
    · linarith
  have hnorm : qnormSq r = 1 := by
    rcases hcase with hc | hc
    · rw [hc]; exact hqs s0 hs0
    · rw [hc, qnormSq_qneg]; exact hqs s0 hs0
  have hvec : r.x * r.x + r.y * r.y + r.z * r.z = 0 := by
    have : qnormSq r = r.s * r.s + (r.x * r.x + r.y * r.y + r.z * r.z) := by
      simp [qnormSq]; ring
    rw [this, hrs1] at hnorm
    linarith
  have hx : r.x = 0 := by
    have := mul_self_nonneg r.x
    have := mul_self_nonneg r.y
    have := mul_self_nonneg r.z
    have : r.x * r.x = 0 := by nlinarith
    exact mul_self_eq_zero.mp this
  have hy : r.y = 0 := by
    have := mul_self_nonneg r.x
    have := mul_self_nonneg r.y
    have := mul_self_nonneg r.z
    have : r.y * r.y = 0 := by nlinarith
    exact mul_self_eq_zero.mp this
  have hz : r.z = 0 := by
    have := mul_self_nonneg r.x
    have := mul_self_nonneg r.y
    have := mul_self_nonneg r.z
    have : r.z * r.z = 0 := by nlinarith
    exact mul_self_eq_zero.mp this
  ext
  · exact hrs1
  · exact hx
  · exact hy
  · exact hz

end FundamentalRegion

/-! ### Crystal symmetry groups over the working field

`crystalsymmetry.py` registers five groups at import time, in this order:
`identity`, `monoclinic`, `orthorhombic`, `hexagonal`, `cubic`.  The field
`K` is abstract, equipped with square roots `s2` of 2 and `s3` of 3; the
group quaternions are the halves of the doubled integer data above. -/

section SymmetryGroups

variable {K : Type} [LinearOrderedField K]

/-- Evaluation of ℤ[√2,√3] in `K` at the chosen roots `s2`, `s3`. -/
def evalZ (s2 s3 : K) (v : Zr23) : K :=
  (v.a : K) + (v.b : K) * s2 + (v.c : K) * s3 + (v.d : K) * (s2 * s3)

/-- Componentwise evaluation of an integer quaternion. -/
def evalQ (s2 s3 : K) (P : Quat Zr23) : Quat K :=
  ⟨evalZ s2 s3 P.s, evalZ s2 s3 P.x, evalZ s2 s3 P.y, evalZ s2 s3 P.z⟩

/-- A group quaternion from its doubled integer representation. -/
def ofDoubled (s2 s3 : K) (P : Quat Zr23) : Quat K :=
  qsmul (1 / 2 : K) (evalQ s2 s3 P)

/-- `CrystalSymmetry`: a named quaternion group (the cached rotation-matrix
array of the source is derived data and is modelled where used). -/
structure CrystalSymmetryK (K : Type) where
  name : String
  quats : List (Quat K)

/-- The `identity` symmetry group. -/
def identityGroupK (s2 s3 : K) : CrystalSymmetryK K :=
  ⟨"identity", identityG2.map (ofDoubled s2 s3)⟩

/-- The `monoclinic` symmetry group. -/
def monoclinicGroupK (s2 s3 : K) : CrystalSymmetryK K :=
  ⟨"monoclinic", monoclinicG2.map (ofDoubled s2 s3)⟩

/-- The `orthorhombic` symmetry group. -/
def orthorhombicGroupK (s2 s3 : K) : CrystalSymmetryK K :=
  ⟨"orthorhombic", orthorhombicG2.map (ofDoubled s2 s3)⟩

/-- The `hexagonal` symmetry group. -/
def hexagonalGroupK (s2 s3 : K) : CrystalSymmetryK K :=
  ⟨"hexagonal", hexagonalG2.map (ofDoubled s2 s3)⟩

/-- The `cubic` symmetry group. -/
def cubicGroupK (s2 s3 : K) : CrystalSymmetryK K :=
  ⟨"cubic", cubicG2.map (ofDoubled s2 s3)⟩

/-- The process-wide registry after import: all five groups, in
registration order. -/
def registeredSymmetries (s2 s3 : K) : List (CrystalSymmetryK K) :=
  [identityGroupK s2 s3, monoclinicGroupK s2 s3, orthorhombicGroupK s2 s3,
   hexagonalGroupK s2 s3, cubicGroupK s2 s3]

variable (s2 s3 : K)

theorem evalZ_mul (h2 : s2 * s2 = 2) (h3 : s3 * s3 = 3) (u v : Zr23) :
    evalZ s2 s3 (Zr23.mul u v) = evalZ s2 s3 u * evalZ s2 s3 v := by
  simp only [Zr23.mul, evalZ]
  push_cast
  linear_combination (-((u.b : K) * v.b + (u.d : K) * v.d * (s3 * s3) +
      ((u.b : K) * v.d + (u.d : K) * v.b) * s3)) * h2 +
    (-((u.c : K) * v.c + 2 * ((u.d : K) * v.d) +
      ((u.c : K) * v.d + (u.d : K) * v.c) * s2)) * h3

theorem evalZ_add (u v : Zr23) :
    evalZ s2 s3 (Zr23.add u v) = evalZ s2 s3 u + evalZ s2 s3 v := by
  simp only [Zr23.add, evalZ]
  push_cast
  ring

theorem evalZ_neg (u : Zr23) : evalZ s2 s3 (Zr23.neg u) = -evalZ s2 s3 u := by
  simp only [Zr23.neg, evalZ]
  push_cast
  ring

theorem evalZ_zint (n : ℤ) : evalZ s2 s3 (zint n) = (n : K) := by
  simp [evalZ, zint]

theorem evalQ_hamZ (h2 : s2 * s2 = 2) (h3 : s3 * s3 = 3) (P Q : Quat Zr23) :
    evalQ s2 s3 (hamZ P Q) = qmult (evalQ s2 s3 P) (evalQ s2 s3 Q) := by
  ext <;>
    simp only [hamZ, qmult, evalQ, evalZ_mul s2 s3 h2 h3, evalZ_add, evalZ_neg] <;> ring

theorem evalQ_doubleZ (P : Quat Zr23) :
    evalQ s2 s3 (qdoubleZ P) = qsmul 2 (evalQ s2 s3 P) := by
  ext <;> simp only [qdoubleZ, qsmul, evalQ, evalZ_add] <;> ring

theorem evalQ_negZ (P : Quat Zr23) :
    evalQ s2 s3 (qnegZ P) = qneg (evalQ s2 s3 P) := by
  ext <;> simp only [qnegZ, qneg, evalQ, evalZ_neg]

theorem evalQ_conjZ (P : Quat Zr23) :
    evalQ s2 s3 (qconjZ P) = qconj (evalQ s2 s3 P) := by
  ext <;> simp only [qconjZ, qconj, evalQ, evalZ_neg]

theorem evalZ_qnormSqZ (h2 : s2 * s2 = 2) (h3 : s3 * s3 = 3) (P : Quat Zr23) :
    evalZ s2 s3 (qnormSqZ P) = qnormSq (evalQ s2 s3 P) := by
  simp only [qnormSqZ, qnormSq, evalQ, evalZ_add, evalZ_mul s2 s3 h2 h3]

/-- The doubled representation of the identity yields the identity. -/
theorem ofDoubled_ident : ofDoubled s2 s3 (quI 2 0 0 0) = qident := by
  ext <;> simp [ofDoubled, qsmul, evalQ, quI, evalZ_zint, qident] <;> norm_num

/-- Transport of the decided integer-level group facts to the working
field: each doubled group list, halved, satisfies the abstract group facts
driving `to_fundamental_region`. -/
theorem groupFacts_ofDoubled (h2 : s2 * s2 = 2) (h3 : s3 * s3 = 3)
    (G2 : List (Quat Zr23)) (rest2 : List (Quat Zr23))
    (hhead : G2 = quI 2 0 0 0 :: rest2)
    (hclos : ∀ p ∈ G2, ∀ s ∈ G2, ∃ t ∈ G2,
      hamZ p s = qdoubleZ t ∨ hamZ p s = qnegZ (qdoubleZ t))
    (hunit : ∀ p ∈ G2, qnormSqZ p = zint 4)
    (hconj : ∀ p ∈ G2, ∃ t ∈ G2, qconjZ p = t ∨ qconjZ p = qnegZ t) :
    GroupFacts (G2.map (ofDoubled s2 s3)) := by
  constructor
  · refine ⟨rest2.map (ofDoubled s2 s3), ?_⟩
    rw [hhead, List.map_cons, ofDoubled_ident s2 s3]
  · intro p hp s hs
    obtain ⟨P, hP, rfl⟩ := List.mem_map.mp hp
    obtain ⟨S, hS, rfl⟩ := List.mem_map.mp hs
    obtain ⟨T, hT, hTc⟩ := hclos P hP S hS
    refine ⟨ofDoubled s2 s3 T, List.mem_map_of_mem _ hT, ?_⟩
    have key : qmult (ofDoubled s2 s3 P) (ofDoubled s2 s3 S) =
        qsmul (1 / 4 : K) (evalQ s2 s3 (hamZ P S)) := by
      rw [ofDoubled, ofDoubled, qmult_qsmul_left, qmult_qsmul_right, qsmul_qsmul,
        evalQ_hamZ s2 s3 h2 h3]
      norm_num
    rcases hTc with h | h
    · left
      rw [key, h, evalQ_doubleZ, qsmul_qsmul, ofDoubled]
      norm_num
    · right
      rw [key, h, evalQ_negZ, evalQ_doubleZ]
      ext <;> simp [ofDoubled, qsmul, qneg] <;> ring
  · intro p hp
    obtain ⟨P, hP, rfl⟩ := List.mem_map.mp hp
    rw [ofDoubled, qnormSq_qsmul, ← evalZ_qnormSqZ s2 s3 h2 h3, hunit P hP, evalZ_zint]
    norm_num
  · intro p hp
    obtain ⟨P, hP, rfl⟩ := List.mem_map.mp hp
    obtain ⟨T, hT, hTc⟩ := hconj P hP
    refine ⟨ofDoubled s2 s3 T, List.mem_map_of_mem _ hT, ?_⟩
    have hc : qconj (ofDoubled s2 s3 P) = ofDoubled s2 s3 (qconjZ P) := by
      rw [ofDoubled, ofDoubled, qconj_qsmul, evalQ_conjZ]
    rcases hTc with h | h
    · left; rw [hc, h]
    · right
      rw [hc, h, ofDoubled, ofDoubled, evalQ_negZ]
      ext <;> simp [qsmul, qneg] <;> ring

/-- Each registered symmetry group satisfies the abstract group facts. -/
theorem registered_groupFacts (h2 : s2 * s2 = 2) (h3 : s3 * s3 = 3) :
    ∀ G ∈ registeredSymmetries s2 s3, GroupFacts G.quats := by
  intro G hG
  simp only [registeredSymmetries, List.mem_cons, List.mem_singleton,
    List.not_mem_nil, or_false] at hG
  rcases hG with rfl | rfl | rfl | rfl | rfl
  · exact groupFacts_ofDoubled s2 s3 h2 h3 identityG2 [] rfl
      identityG2_closure identityG2_unit identityG2_conj
  · exact groupFacts_ofDoubled s2 s3 h2 h3 monoclinicG2 _ rfl
      monoclinicG2_closure monoclinicG2_unit monoclinicG2_conj
  · exact groupFacts_ofDoubled s2 s3 h2 h3 orthorhombicG2 _ rfl
      orthorhombicG2_closure orthorhombicG2_unit orthorhombicG2_conj
  · exact groupFacts_ofDoubled s2 s3 h2 h3 hexagonalG2 _ rfl
      hexagonalG2_closure hexagonalG2_unit hexagonalG2_conj
  · exact groupFacts_ofDoubled s2 s3 h2 h3 cubicG2 _ rfl
      cubicG2_closure cubicG2_unit cubicG2_conj

end SymmetryGroups

/-- C6: for every registered crystal symmetry group, `to_fundamental_region`
is idempotent on every array of unit quaternions, and it maps every
quaternion that is itself an element of the symmetry group to the identity
quaternion `(1, 0, 0, 0)`. -/
theorem C6_to_fundamental_region {K : Type} [LinearOrderedField K]
    (s2 s3 : K) (h2 : s2 * s2 = 2) (h3 : s3 * s3 = 3) :
    ∀ G ∈ registeredSymmetries s2 s3,
      (∀ qs : List (Quat K), (∀ q ∈ qs, qnormSq q = 1) →
        to_fundamental_region G.quats (to_fundamental_region G.quats qs) =
          to_fundamental_region G.quats qs) ∧
      (∀ q ∈ G.quats, to_fundamental_region1 G.quats q = qident) := by
  intro G hG
  have hf := registered_groupFacts s2 s3 h2 h3 G hG
  constructor
  · intro qs _
    unfold to_fundamental_region
    rw [List.map_map]
    apply List.map_congr_left
    intro q _
    exact tofr1_idem G.quats hf q
  · intro q hq
    exact tofr1_mem_ident G.quats hf q hq

/-- Witness for C6 at a concrete instance: the real field with its actual
square roots, the cubic group, and the batch `[identity]` of unit
quaternions. -/
theorem C6_witness :
    (Real.sqrt 2 * Real.sqrt 2 = 2) ∧ (Real.sqrt 3 * Real.sqrt 3 = 3) ∧
    cubicGroupK (Real.sqrt 2) (Real.sqrt 3) ∈
      registeredSymmetries (Real.sqrt 2) (Real.sqrt 3) ∧
    (∀ q ∈ [(qident : Quat ℝ)], qnormSq q = 1) ∧
    qident ∈ (cubicGroupK (Real.sqrt 2) (Real.sqrt 3)).quats ∧
    (to_fundamental_region (cubicGroupK (Real.sqrt 2) (Real.sqrt 3)).quats
        (to_fundamental_region (cubicGroupK (Real.sqrt 2) (Real.sqrt 3)).quats
          [(qident : Quat ℝ)]) =
      to_fundamental_region (cubicGroupK (Real.sqrt 2) (Real.sqrt 3)).quats
        [(qident : Quat ℝ)]) ∧
    to_fundamental_region1 (cubicGroupK (Real.sqrt 2) (Real.sqrt 3)).quats qident =
      qident := by
  have h2 : Real.sqrt 2 * Real.sqrt 2 = 2 := Real.mul_self_sqrt (by norm_num)
  have h3 : Real.sqrt 3 * Real.sqrt 3 = 3 := Real.mul_self_sqrt (by norm_num)
  have hmem : cubicGroupK (Real.sqrt 2) (Real.sqrt 3) ∈
      registeredSymmetries (Real.sqrt 2) (Real.sqrt 3) := by
    simp [registeredSymmetries]
  have hunit : ∀ q ∈ [(qident : Quat ℝ)], qnormSq q = 1 := by
    intro q hq
    rw [List.mem_singleton] at hq
    subst hq
    simp [qnormSq, qident]
  have hqmem : qident ∈ (cubicGroupK (Real.sqrt 2) (Real.sqrt 3)).quats := by
    rw [show (qident : Quat ℝ) = ofDoubled (Real.sqrt 2) (Real.sqrt 3) (quI 2 0 0 0) from
      (ofDoubled_ident _ _).symm]
    exact List.mem_map_of_mem _ (List.mem_cons_self _ _)
  obtain ⟨hidem, hident⟩ :=
    C6_to_fundamental_region (Real.sqrt 2) (Real.sqrt 3) h2 h3 _ hmem
  exact ⟨h2, h3, hmem, hunit, hqmem, hidem [qident] hunit, hident qident hqmem⟩


/-! ### Rotation matrices from quaternions

Embeds `to_rmats` of `quaternions.py`:
`R = rankone(qv, 2 qv) + vec2skew(2 qs qv) + (qs² − qv·qv) I`. -/

/-- `to_rmats` for a single quaternion. -/
def rmatOfQuat {K : Type} [CommRing K] (q : Quat K) : Matrix (Fin 3) (Fin 3) K :=
  !![q.x * (2 * q.x) + (q.s * q.s - (q.x * q.x + q.y * q.y + q.z * q.z)),
     q.x * (2 * q.y) - 2 * q.s * q.z,
     q.x * (2 * q.z) + 2 * q.s * q.y;
     q.y * (2 * q.x) + 2 * q.s * q.z,
     q.y * (2 * q.y) + (q.s * q.s - (q.x * q.x + q.y * q.y + q.z * q.z)),
     q.y * (2 * q.z) - 2 * q.s * q.x;
     q.z * (2 * q.x) - 2 * q.s * q.y,
     q.z * (2 * q.y) + 2 * q.s * q.x,
     q.z * (2 * q.z) + (q.s * q.s - (q.x * q.x + q.y * q.y + q.z * q.z))]

section RmatBridge

variable {K : Type} [LinearOrderedField K] (s2 s3 : K)

theorem evalZ_mul' (h2 : s2 * s2 = 2) (h3 : s3 * s3 = 3) (u v : Zr23) :
    evalZ s2 s3 (u * v) = evalZ s2 s3 u * evalZ s2 s3 v :=
  evalZ_mul s2 s3 h2 h3 u v

theorem evalZ_add' (u v : Zr23) :
    evalZ s2 s3 (u + v) = evalZ s2 s3 u + evalZ s2 s3 v :=
  evalZ_add s2 s3 u v

theorem evalZ_neg' (u : Zr23) : evalZ s2 s3 (-u) = -evalZ s2 s3 u :=
  evalZ_neg s2 s3 u

theorem evalZ_sub' (u v : Zr23) :
    evalZ s2 s3 (u - v) = evalZ s2 s3 u - evalZ s2 s3 v := by
  rw [sub_eq_add_neg, evalZ_add', evalZ_neg', sub_eq_add_neg]

theorem evalZ_ofNat (n : ℕ) [n.AtLeastTwo] :
    evalZ s2 s3 (OfNat.ofNat n) = OfNat.ofNat n := by
  show evalZ s2 s3 (zint (OfNat.ofNat n)) = _
  rw [evalZ_zint]
  push_cast
  rfl

theorem evalZ_two : evalZ s2 s3 (2 : Zr23) = 2 := evalZ_ofNat s2 s3 2

theorem evalZ_four : evalZ s2 s3 (4 : Zr23) = 4 := evalZ_ofNat s2 s3 4

/-- Evaluation commutes with the rotation-matrix map (the formula is
polynomial). -/
theorem rmat_evalQ (h2 : s2 * s2 = 2) (h3 : s3 * s3 = 3) (P : Quat Zr23) :
    rmatOfQuat (evalQ s2 s3 P) = (rmatOfQuat P).map (evalZ s2 s3) := by
  ext i j
  fin_cases i <;> fin_cases j <;>
    simp [rmatOfQuat, Matrix.map_apply, evalQ, evalZ_mul' s2 s3 h2 h3, evalZ_add',
      evalZ_sub', evalZ_two]

/-- The rotation-matrix formula is homogeneous of degree two. -/
theorem rmat_qsmul (c : K) (q : Quat K) :
    rmatOfQuat (qsmul c q) = (c * c) • rmatOfQuat q := by
  ext i j
  fin_cases i <;> fin_cases j <;> simp [rmatOfQuat, qsmul, Matrix.smul_apply] <;> ring

end RmatBridge

/-! ### Slip systems

Embeds `polycrystal/slip/slipgroup.py`. -/

/-- `SlipGroup._unique_ss` accumulator: walk the list of Schmid tensors,
keeping a tensor unless an already-kept tensor equals it or equals its
negation (the source's `np.allclose` comparisons, exact in exact
arithmetic). -/
def uniqueSSAux {α : Type} [DecidableEq α] [Neg α] (kept : List α) :
    List α → List α
  | [] => kept
  | x :: xs =>
      if kept.any (fun k => decide (k = x ∨ k = -x)) then uniqueSSAux kept xs
      else uniqueSSAux (kept ++ [x]) xs

/-- `SlipGroup._unique_ss`: the retained Schmid tensors, in order. -/
def uniqueSS {α : Type} [DecidableEq α] [Neg α] (l : List α) : List α :=
  uniqueSSAux [] l

/-- `SlipGroup._generate_ss` up to the final normalization: rotate the
normal `n` and direction `d` by every symmetry rotation, form the dyads
`dᵢ ⊗ nᵢ`, and deduplicate up to sign.  The source then divides every
retained tensor by its Frobenius norm; that norm is the same positive
constant `|d|·|n|` for every tensor (rotations preserve norms; it is `√6`
for both generators of claim C7, see `fccSchmid_frobSq`), so the
normalization neither changes the number of retained tensors nor
equality-up-to-sign between them, and it is left out of the embedding,
whose scalar ring has no square roots of 6. -/
def generateSS {R : Type} [CommRing R] [DecidableEq R]
    (nvec dvec : Fin 3 → R) (rmats : List (Matrix (Fin 3) (Fin 3) R)) :
    List (Matrix (Fin 3) (Fin 3) R) :=
  uniqueSS (rmats.map fun r =>
    Matrix.of fun i j => r.mulVec dvec i * r.mulVec nvec j)

/-- The dedup accumulator only ever adds tensors distinct (up to sign) from
everything already kept. -/
theorem uniqueSSAux_pairwise {α : Type} [DecidableEq α] [Neg α]
    (P : α → α → Prop) (hP : ∀ a b, a ≠ b → a ≠ -b → P a b) :
    ∀ (rem kept : List α), kept.Pairwise P →
      (uniqueSSAux kept rem).Pairwise P := by
  intro rem
  induction rem with
  | nil => intro kept h; exact h
  | cons x xs ih =>
      intro kept h
      rw [uniqueSSAux]
      split
      · exact ih kept h
      · next hany =>
          apply ih
          rw [List.pairwise_append]
          refine ⟨h, List.pairwise_singleton P x, ?_⟩
          intro a ha b hb
          rw [List.mem_singleton] at hb
          subst hb
          have := List.any_eq_false.mp (Bool.not_eq_true _ ▸ hany) a ha
          simp only [decide_eq_true_eq] at this
          push_neg at this
          exact hP a b this.1 this.2

/-- The invariant of `_unique_ss`: no two retained tensors are equal, or
equal up to sign. -/
theorem uniqueSS_pairwise {α : Type} [DecidableEq α] [Neg α] (l : List α) :
    (uniqueSS l).Pairwise (fun a b => a ≠ b ∧ a ≠ -b) :=
  uniqueSSAux_pairwise _ (fun _ _ h1 h2 => ⟨h1, h2⟩) l [] List.Pairwise.nil

/-! ### The cubic rotation matrices over the integers

`CrystalSymmetry.__init__` caches `rmats = to_rmats(quats)`.  For the cubic
group the rotation matrices are integer (signed-permutation) matrices.
They are obtained here from the doubled quaternions: `to_rmats` is
homogeneous of degree 2 (`rmat_qsmul`), so the matrices of the doubled
quaternions are 4 times the true ones; `cubicRmats` divides that factor
out, and `cubicRmats_exact` certifies the division exact, so
`cubicRmatsK_eq` identifies `cubicRmats` with the genuine rotation
matrices of the cubic group over the working field. -/

/-- Componentwise exact division by 4 on ℤ[√2,√3] (used only where
`cubicRmats_exact` proves exactness). -/
def zdiv4 (x : Zr23) : Zr23 := ⟨x.a / 4, x.b / 4, x.c / 4, x.d / 4⟩

/-- The rotation matrices of the cubic symmetry group (integer-valued). -/
def cubicRmats : List (Matrix (Fin 3) (Fin 3) Zr23) :=
  (cubicG2.map rmatOfQuat).map fun M => M.map zdiv4

/-- The division by 4 in `cubicRmats` is exact. -/
theorem cubicRmats_exact :
    cubicRmats.map (fun M => M.map (fun x => (4 : Zr23) * x)) =
      cubicG2.map rmatOfQuat := by decide

/-- The rotation matrices of the cubic group over the working field are the
evaluations of the integer matrices `cubicRmats`. -/
theorem cubicRmatsK_eq {K : Type} [LinearOrderedField K] (s2 s3 : K)
    (h2 : s2 * s2 = 2) (h3 : s3 * s3 = 3) :
    (cubicGroupK s2 s3).quats.map rmatOfQuat =
      cubicRmats.map fun M => M.map (evalZ s2 s3) := by
  have step : ∀ P : Quat Zr23,
      rmatOfQuat (ofDoubled s2 s3 P) =
        ((rmatOfQuat P).map (evalZ s2 s3)).map (fun x => (1 / 4 : K) * x) := by
    intro P
    rw [ofDoubled, rmat_qsmul, rmat_evalQ s2 s3 h2 h3]
    ext i j
    simp only [Matrix.map_apply, Matrix.smul_apply, smul_eq_mul]
    ring
  calc (cubicGroupK s2 s3).quats.map rmatOfQuat
      = cubicG2.map fun P =>
          ((rmatOfQuat P).map (evalZ s2 s3)).map (fun x => (1 / 4 : K) * x) := by
        show (cubicG2.map (ofDoubled s2 s3)).map rmatOfQuat = _
        rw [List.map_map]
        exact List.map_congr_left fun P _ => step P
  _ = (cubicG2.map rmatOfQuat).map
        (fun M => (M.map (evalZ s2 s3)).map fun x => (1 / 4 : K) * x) := by
        rw [List.map_map]; rfl
  _ = (cubicRmats.map fun M => M.map fun x : Zr23 => (4 : Zr23) * x).map
        (fun M => (M.map (evalZ s2 s3)).map fun x => (1 / 4 : K) * x) := by
        rw [cubicRmats_exact]
  _ = cubicRmats.map fun M => M.map (evalZ s2 s3) := by
        rw [List.map_map]
        apply List.map_congr_left
        intro M _
        ext i j
        simp only [Function.comp, Matrix.map_apply]
        rw [evalZ_mul' s2 s3 h2 h3, evalZ_four]
        ring

/-- The retained Schmid tensors (up to the common normalizer) of the fcc
slip group `SlipGroup((1,1,1), (1,-1,0), cubic)`. -/
def fccSchmid : List (Matrix (Fin 3) (Fin 3) Zr23) :=
  generateSS ![1, 1, 1] ![1, -1, 0] cubicRmats

/-- The retained Schmid tensors (up to the common normalizer) of the bcc
slip group `SlipGroup((1,1,0), (-1,1,1), cubic)`. -/
def bccSchmid : List (Matrix (Fin 3) (Fin 3) Zr23) :=
  generateSS ![1, 1, 0] ![-1, 1, 1] cubicRmats

/-- The squared Frobenius norm `((ss*ss).sum((1,2))` of the source's
normalization step. -/
def frobSq (M : Matrix (Fin 3) (Fin 3) Zr23) : Zr23 := ∑ i, ∑ j, M i j * M i j

/-- Every retained fcc and bcc tensor has squared Frobenius norm 6: the
normalizer divided out by the source is the constant √6 > 0 for every
tensor of both groups. -/
theorem fccSchmid_frobSq :
    (∀ M ∈ fccSchmid, frobSq M = zint 6) ∧ ∀ M ∈ bccSchmid, frobSq M = zint 6 := by
  constructor <;> decide

/-! ### Scalar facts for the elasticity proofs -/

theorem two_mul_half : (2 : Q2) * half = 1 := by
  ext <;> simp [half]

/-- A matrix rebuilt from a symmetric-part 6-vector is symmetric. -/
theorem sysFromSymm_transpose (sys : MatrixComponentSystem) (v : Vec6) :
    (sysFromSymm sys v).transpose = sysFromSymm sys v := by
  ext i j <;> cases sys <;> fin_cases i <;> fin_cases j <;>
    simp [sysFromSymm, fromPartsSymmVoigt, fromPartsSymmMandel,
      toMatricesVoigt, toMatricesMandel, extendSymm] <;>
    ring

/-- The mutable state of a `Cubic` moduli handler: the three independent
moduli, the component system (`BaseModuli._system`, which the setters keep
equal to `StiffnessMatrix._system`), and the stored stiffness matrix. -/
structure CubicState where
  c11 : Q2
  c12 : Q2
  c44 : Q2
  system : MatrixComponentSystem
  stiff : Mat6

/-- `Cubic.__init__` followed by `init_system`: store the moduli and build
the stiffness matrix from them (`stiffness_from_moduli`). -/
def cubicInit (c11 c12 c44 : Q2) (sys : MatrixComponentSystem) : CubicState :=
  ⟨c11, c12, c44, sys,
    fillCij (highSymmetryMatrix c11 c12 c12 c11 c12 c11 c44 c44 c44) sys⟩

/-- `Cubic.from_K_Gd_Gs`. -/
def cubicFromKGdGs (K Gd Gs : Q2) (sys : MatrixComponentSystem) : CubicState :=
  cubicInit ((3 * K + 4 * Gd) * inv2 3) ((3 * K - 2 * Gd) * inv2 3)
    (if sys = .VOIGT_GAMMA then Gs else 2 * Gs) sys

/-- The `BaseModuli.system` setter for a recognized system `v`: rescale the
stored stiffness matrix (the `StiffnessMatrix.system` setter, a no-op for a
self-transition), record the new system, and re-read the moduli from the
matrix (`moduli_from_stiffness`: `c11 = m[0,0]`, `c12 = m[0,1]`,
`c44 = m[3,3]`). -/
def setSystem (s : CubicState) (v : MatrixComponentSystem) : CubicState :=
  let m2 := match scales_dict s.system v with
    | none => s.stiff
    | some sc => rescaleMatrix sc s.stiff
  ⟨m2 0 0, m2 0 1, m2 3 3, v, m2⟩

/-- `Cubic.K`. -/
def cubicK (s : CubicState) : Q2 := (s.c11 + 2 * s.c12) * inv2 3

/-- `Cubic.Gd`. -/
def cubicGd (s : CubicState) : Q2 := (s.c11 - s.c12) * inv2 2

/-- `Cubic.Gs`. -/
def cubicGs (s : CubicState) : Q2 :=
  if s.system = .VOIGT_GAMMA then s.c44 else half * s.c44

/-- The block-diagonal cubic stiffness matrix. -/
def cubicMat (a b g : Q2) : Mat6 :=
  !![a, b, b, 0, 0, 0;
     b, a, b, 0, 0, 0;
     b, b, a, 0, 0, 0;
     0, 0, 0, g, 0, 0;
     0, 0, 0, 0, g, 0;
     0, 0, 0, 0, 0, g]

@[simp] theorem cubicMat_00 (a b g : Q2) : cubicMat a b g 0 0 = a := rfl

@[simp] theorem cubicMat_01 (a b g : Q2) : cubicMat a b g 0 1 = b := rfl

@[simp] theorem cubicMat_33 (a b g : Q2) : cubicMat a b g 3 3 = g := rfl

theorem half_mul_zero : half * (0 : Q2) = 0 := by
  ext <;> simp [half]

theorem fillCij_highsym (a b g : Q2) (sys : MatrixComponentSystem) :
    fillCij (highSymmetryMatrix a b b a b a g g g) sys = cubicMat a b g := by
  cases sys <;> refine Matrix.ext fun i j => ?_ <;> fin_cases i <;> fin_cases j <;>
    first
      | rfl
      | exact half_mul_zero

theorem rescale_cubicMat (sc : Scales) (a b g : Q2) :
    rescaleMatrix sc (cubicMat a b g) = cubicMat a b (sc.low_right * g) := by
  refine Matrix.ext fun i j => ?_
  fin_cases i <;> fin_cases j <;>
    first
      | rfl
      | exact mul_zero _

theorem inv2_two_eq : inv2 (2 : Q2) = ⟨1 / 2, 0⟩ := by
  ext <;> simp [inv2] <;> norm_num

theorem inv2_three_eq : inv2 (3 : Q2) = ⟨1 / 3, 0⟩ := by
  ext <;> simp [inv2] <;> norm_num

theorem inv2_two_mul_two (x : Q2) : inv2 2 * (2 * x) = x := by
  rw [inv2_two_eq]; ext <;> simp <;> ring

theorem two_inv2_two_mul (x : Q2) : 2 * inv2 2 * x = x := by
  rw [inv2_two_eq]; ext <;> simp <;> ring

theorem half_mul_two (x : Q2) : half * (2 * x) = x := by
  ext <;> simp [half]

/-- The `system` setter on any cubic-shaped state: the upper-left stiffness
block (hence `c11`, `c12`) is never rescaled, and the retained `c44` is the
shear diagonal entry for the new system. -/
theorem setSystem_eq (a b Gs : Q2) (s : CubicState) (v : MatrixComponentSystem)
    (hst : s.stiff = cubicMat a b (if s.system = .VOIGT_GAMMA then Gs else 2 * Gs)) :
    setSystem s v = ⟨a, b, (if v = .VOIGT_GAMMA then Gs else 2 * Gs), v,
      cubicMat a b (if v = .VOIGT_GAMMA then Gs else 2 * Gs)⟩ := by
  obtain ⟨c1, c2, c4, sys, st⟩ := s
  cases sys <;> cases v <;>
    (dsimp only at hst; rw [hst];
     simp [setSystem, scales_dict, rescale_cubicMat, vg_to_ve, vg_to_md,
       inv2_two_mul_two, two_inv2_two_mul])

/-- C3: a `Cubic` moduli handler built by `from_K_Gd_Gs` under `MANDEL`
keeps the derived properties `K`, `Gd`, `Gs` exactly invariant under every
sequence of assignments of `system` to recognized component systems (the
upper-left stiffness block is never rescaled and the `Gs` property undoes
the system-dependent factor of 2 on `c44`).  Stated over the exact scalar
field; the floating-point source computes the same values exactly in the
repository's own test. -/
theorem C3_cubic_properties_system_invariant (K Gd Gs : Q2)
    (l : List MatrixComponentSystem) :
    cubicK (l.foldl setSystem (cubicFromKGdGs K Gd Gs .MANDEL)) = K ∧
    cubicGd (l.foldl setSystem (cubicFromKGdGs K Gd Gs .MANDEL)) = Gd ∧
    cubicGs (l.foldl setSystem (cubicFromKGdGs K Gd Gs .MANDEL)) = Gs := by
  set a := (3 * K + 4 * Gd) * inv2 3 with ha
  set b := (3 * K - 2 * Gd) * inv2 3 with hb
  have inv0 : (cubicFromKGdGs K Gd Gs .MANDEL).stiff =
      cubicMat a b
        (if (cubicFromKGdGs K Gd Gs .MANDEL).system = .VOIGT_GAMMA
          then Gs else 2 * Gs) := by
    simp [cubicFromKGdGs, cubicInit, fillCij_highsym]
  have hfold : ∀ (l : List MatrixComponentSystem) (s : CubicState),
      (s.c11 = a ∧ s.c12 = b ∧
        s.c44 = (if s.system = .VOIGT_GAMMA then Gs else 2 * Gs) ∧
        s.stiff = cubicMat a b (if s.system = .VOIGT_GAMMA then Gs else 2 * Gs)) →
      ((l.foldl setSystem s).c11 = a ∧ (l.foldl setSystem s).c12 = b ∧
        (l.foldl setSystem s).c44 =
          (if (l.foldl setSystem s).system = .VOIGT_GAMMA then Gs else 2 * Gs) ∧
        (l.foldl setSystem s).stiff =
          cubicMat a b
            (if (l.foldl setSystem s).system = .VOIGT_GAMMA then Gs else 2 * Gs)) := by
    intro l
    induction l with
    | nil => intro s hs; exact hs
    | cons x xs ih =>
        intro s hs
        refine ih (setSystem s x) ?_
        rw [setSystem_eq a b Gs s x hs.2.2.2]
        exact ⟨rfl, rfl, rfl, rfl⟩
  obtain ⟨h1, h2, h3, -⟩ := hfold l _ ⟨rfl, rfl, rfl, inv0⟩
  refine ⟨?_, ?_, ?_⟩
  · rw [cubicK, h1, h2, ha, hb, inv2_three_eq]
    ext <;> simp <;> ring
  · rw [cubicGd, h1, h2, ha, hb, inv2_three_eq, inv2_two_eq]
    ext <;> simp <;> ring
  · by_cases hv :
        (l.foldl setSystem (cubicFromKGdGs K Gd Gs .MANDEL)).system = .VOIGT_GAMMA <;>
      simp [cubicGs, h3, hv, half_mul_two]

/-! ### The claimed `symm` factors (claim C4) -/

/-- The `symm` 6-vector in the exact form the specification states it:
`[m00, m11, m22, f*(m12+m21), f*(m02+m20), f*(m01+m10)]` for a factor `f`.
This definition follows the spec words, to be compared with `symmVoigt` and
`symmMandel` translated from the source. -/
def symmSpec (f : Q2) (m : Mat3) : Vec6 :=
  ![m 0 0, m 1 1, m 2 2, f * (m 1 2 + m 2 1), f * (m 0 2 + m 2 0),
    f * (m 0 1 + m 1 0)]

/-- C4 (refutation): the claimed Voigt `symm` factor `f = 1` is wrong; on
the matrix with `m12 = m21 = 1` the Voigt `symm` shear component is `1`
(factor `0.5` in `VoigtSystem.to_components`), not the claimed `2`. -/
theorem C4_voigt_factor_counterexample :
    symmVoigt !![0, 0, 0; 0, 0, 1; 0, 1, 0] ≠
      symmSpec 1 !![0, 0, 0; 0, 0, 1; 0, 1, 0] := by
  intro h
  have h3 := congrArg QuadExt.re (congrFun h 3)
  norm_num [symmVoigt, symmSpec, takeSymm, toComponentsVoigt, half] at h3

/-- C4 (amended): the Voigt-system `symm` 6-vector is
`[m00, m11, m22, f*(m12+m21), f*(m02+m20), f*(m01+m10)]` with `f = 1/2`
(not `1` as claimed), and the Mandel-system one has `f = 1/√2` (as
claimed). -/
theorem C4_symm_factors_amended (m : Mat3) :
    symmVoigt m = symmSpec half m ∧ symmMandel m = symmSpec (inv2 sqrt2) m := by
  constructor <;> funext i <;> fin_cases i <;>
    refine QuadExt.ext_parts ?_ ?_ <;>
    simp [symmVoigt, symmMandel, symmSpec, takeSymm, toComponentsVoigt,
      toComponentsMandel, half]

/-- C9: `StiffnessMatrix` construction fails with `ValueError` exactly when
the independent-value array does not have length 21 or the `system` argument
is not a member of `MatrixComponentSystem`, and succeeds otherwise. -/
theorem C9_stiffness_init_validation (cij : List Q2)
    (system : Option MatrixComponentSystem) :
    ((∃ e, stiffnessMatrixInit cij system = .error e) ↔
      (cij.length ≠ 21 ∨ system = none)) ∧
    ((∃ M, stiffnessMatrixInit cij system = .ok M) ↔
      (cij.length = 21 ∧ system ≠ none)) := by
  by_cases hl : cij.length = 21 <;> cases system <;>
    simp [stiffnessMatrixInit, hl]

/-- C7: the slip group generated from normal `(1,1,1)` and direction
`(1,-1,0)` under the cubic symmetry group retains exactly 12 Schmid
tensors, the one from normal `(1,1,0)` and direction `(-1,1,1)` also
retains exactly 12, and for every input list the retained tensors of
`_unique_ss` are pairwise distinct and pairwise non-opposite (the source's
`np.allclose` tolerance comparisons, exact in exact integer arithmetic). -/
theorem C7_slipgroup_counts_and_distinct :
    fccSchmid.length = 12 ∧ bccSchmid.length = 12 ∧
    ∀ l : List (Matrix (Fin 3) (Fin 3) Zr23),
      (uniqueSS l).Pairwise (fun a b => a ≠ b ∧ a ≠ -b) := by
  refine ⟨by decide, by decide, fun l => uniqueSS_pairwise l⟩

/-! ### Stacking slip groups (claim C8)

Embeds `SlipCrystal.__init__` of `polycrystal/slip/slipcrystal.py` and the
shape check of `BaseSystem.__init__`
(`polycrystal/utils/tensor_data/base_system.py`).  A 3-D numpy array of
shape `(n, r, c)` is a list of `n` slices, each a list of `r` rows. -/

/-- A 3-D numpy array over the slip-computation scalars. -/
abbrev NpArr3 : Type := List (List (List Zr23))

/-- `shape[1]` of a 3-D array (rectangular in all uses here). -/
def shape1 (m : NpArr3) : ℕ := (m.getD 0 []).length

/-- `shape[2]` of a 3-D array. -/
def shape2 (m : NpArr3) : ℕ := ((m.getD 0 []).getD 0 []).length

/-- `np.hstack` on a non-empty list of 3-D arrays:
`np.concatenate(axis=1)`, so slice `i` of the result concatenates the
slices `i` of the inputs.  numpy requires the first (and third) axes of
the inputs to agree; the third-axis check never fires for the
Schmid-tensor batches stacked here (all rows have length 3), and is not
modelled. -/
def hstack3 : List NpArr3 → Except String NpArr3
  | [] => .error "need at least one array to concatenate"
  | a :: rest =>
      if rest.all (fun b => b.length = a.length) then
        .ok ((List.range a.length).map fun i =>
          ((a :: rest).map fun arr => arr.getD i []).flatten)
      else
        .error "all the input array dimensions except for the concatenation axis must match exactly"

/-- `BaseSystem.__init__` on a 3-D input: raises
`ValueError("`matrices` has incorrect shape")` unless the second and third
dimensions are both 3. -/
def baseSystemInit (m : NpArr3) : Except String NpArr3 :=
  if shape1 m = 3 ∧ shape2 m = 3 then .ok m
  else .error "\x60matrices\x60 has incorrect shape"

/-- The Schmid-tensor setup of `SlipCrystal.__init__`:
`SymmDevSystem(np.hstack([g.schmid for g in groups]))`. -/
def slipCrystalSchmidInit (groups : List NpArr3) : Except String NpArr3 := do
  let stacked ← hstack3 groups
  baseSystemInit stacked

/-- A batch of 3x3 matrices as a 3-D numpy array. -/
def matToLists (M : Matrix (Fin 3) (Fin 3) Zr23) : List (List Zr23) :=
  [[M 0 0, M 0 1, M 0 2], [M 1 0, M 1 1, M 1 2], [M 2 0, M 2 1, M 2 2]]

/-- The `schmid` array of a slip group, as a numpy array of shape
`(n, 3, 3)`. -/
def toNp (l : List (Matrix (Fin 3) (Fin 3) Zr23)) : NpArr3 := l.map matToLists

/-- C8 (refutation): `np.hstack` concatenates 3-D arrays along the second
axis, not the batch axis, so `SlipCrystal` construction from the two
12-system cubic slip groups fails: the stacked array has shape
`(12, 6, 3)` and `BaseSystem.__init__` raises
`ValueError("`matrices` has incorrect shape")` — whereas each group alone
is well-shaped and the claimed batch concatenation would have
`num_slipsys = 12 + 12 = 24`. -/
theorem C8_slipcrystal_hstack_diverges :
    slipCrystalSchmidInit [toNp fccSchmid, toNp bccSchmid] =
      .error "\x60matrices\x60 has incorrect shape" ∧
    (toNp fccSchmid).length + (toNp bccSchmid).length = 24 ∧
    baseSystemInit (toNp fccSchmid) = .ok (toNp fccSchmid) ∧
    baseSystemInit (toNp bccSchmid) = .ok (toNp bccSchmid) ∧
    slipCrystalSchmidInit [toNp fccSchmid] = .ok (toNp fccSchmid) := by
  exact ⟨rfl, by decide, rfl, rfl, rfl⟩

/-! ### Output units of a single crystal (claim C5)

Embeds the `output_units` setter of
`polycrystal/elasticity/single_crystal.py` and the `units` setter of
`StiffnessMatrix`.  The moduli handlers (`BaseModuli` and its subclasses)
define no `units` property, so the Python statement
`self.moduli.units = v` executed by the `output_units` setter binds a
plain instance attribute on the handler object and never reaches the
stored `StiffnessMatrix`. -/

/-- The stress units appearing in the claim (`pint` expressions in the
source). -/
inductive StressUnits where
  | GPa
  | MPa
deriving DecidableEq

/-- Magnitude conversion factor of `pint`'s `ito` between stress units. -/
def unitFactor : StressUnits → StressUnits → Q2
  | .GPa, .MPa => 1000
  | .MPa, .GPa => inv2 1000
  | _, _ => 1

/-- The state of a `StiffnessMatrix`: stored magnitudes and their units. -/
structure StiffnessMatrixU where
  matrix : Mat6
  units : StressUnits

/-- The `StiffnessMatrix.units` setter: `self._matrix.ito(v)` converts the
stored magnitudes to the new unit, then the unit is recorded.  This is the
rescale logic the claim says the crystal's `output_units` setter reaches. -/
def stiffUnitsSet (sm : StiffnessMatrixU) (v : StressUnits) : StiffnessMatrixU :=
  ⟨unitFactor sm.units v • sm.matrix, v⟩

/-- The attributes of a moduli handler relevant to the `output_units`
setter: the held `StiffnessMatrix` (`_stiffness`) and the plain `units`
attribute that `self.moduli.units = v` binds (absent until first
assigned). -/
structure ModuliHandlerU where
  stiff : StiffnessMatrixU
  unitsAttr : Option StressUnits

/-- The `SingleCrystal.output_units` setter as the source executes it:
`self.moduli.units = v` writes the plain attribute — no `units` property
exists on the handler classes — leaving the stiffness matrix untouched. -/
def setOutputUnits (m : ModuliHandlerU) (v : StressUnits) : ModuliHandlerU :=
  { m with unitsAttr := some v }

/-- C5 (refutation): assigning `output_units` never changes the stored
stiffness matrix (neither magnitudes nor recorded units) for any handler
state and any target unit, while the `StiffnessMatrix.units` rescale logic
the claim describes would multiply a GPa matrix by 1000 on conversion to
MPa — a different result on every nonzero stiffness (the identity
stiffness shown here). -/
theorem C5_output_units_no_rescale :
    (∀ (m : ModuliHandlerU) (v : StressUnits),
      (setOutputUnits m v).stiff = m.stiff ∧
      (setOutputUnits m v).unitsAttr = some v) ∧
    stiffUnitsSet ⟨1, .GPa⟩ .MPa = ⟨(1000 : Q2) • (1 : Mat6), .MPa⟩ ∧
    (setOutputUnits ⟨⟨1, .GPa⟩, none⟩ .MPa).stiff.matrix = (1 : Mat6) ∧
    (1000 : Q2) • (1 : Mat6) ≠ (1 : Mat6) := by
  refine ⟨fun m v => ⟨rfl, rfl⟩, rfl, rfl, fun h => ?_⟩
  have h0 := congrArg (fun M : Mat6 => (M 0 0).re) h
  norm_num [Matrix.smul_apply, Matrix.one_apply, smul_eq_mul] at h0

/-! ### Quaternion inversion is non-mutating (claim C10)

Embeds `inverse` of `polycrystal/orientations/quaternions.py` with an
explicit heap: numpy arrays live in cells addressed by natural numbers, so
that `q.copy()` (a fresh cell) and the in-place update
`qi[:, 1:] = -qi[:, 1:]` (a write to that cell) are visible as heap
operations. -/

/-- A numpy array value: a 1-D quaternion `(4,)` or a 2-D batch `(n, 4)`. -/
inductive NpVal where
  | one (row : List ℚ)
  | two (rows : List (List ℚ))
deriving DecidableEq

/-- The heap: array values addressed by cell. -/
abbrev Heap : Type := ℕ → NpVal

/-- `qi.reshape((1,4))` applied when `qi.ndim == 1`, the identity on 2-D
input (the source guards the reshape with `if qi.ndim == 1`). -/
def reshape14 : NpVal → NpVal
  | .one row => .two [row]
  | .two rows => .two rows

/-- One row of `qi[:, 1:] = -qi[:, 1:]`: negate the vector part, keep the
scalar part. -/
def negVecRow : List ℚ → List ℚ
  | [] => []
  | s :: v => s :: v.map (- ·)

/-- The in-place update `qi[:, 1:] = -qi[:, 1:]` on a 2-D array (the
program reshapes first, so the 1-D constructor is never reached and is
left unchanged). -/
def negVecRows : NpVal → NpVal
  | .one row => .one row
  | .two rows => .two (rows.map negVecRow)

/-- `inverse(q)`: copy the argument into the fresh cell `n`, reshape the
copy if 1-D, negate its vector part in place, and return that cell. -/
def inverseProg (h : Heap) (qid n : ℕ) : Heap × ℕ :=
  let h1 := Function.update h n (h qid)
  let h2 := Function.update h1 n (reshape14 (h1 n))
  let h3 := Function.update h2 n (negVecRows (h2 n))
  (h3, n)

/-- C10: `inverse` does not mutate its argument — after the call the
argument's cell still holds exactly its original value, and the returned
fresh array is the (reshaped) input with the vector part of every
quaternion negated. -/
theorem C10_inverse_no_mutation (h : Heap) (qid n : ℕ) (hfresh : n ≠ qid) :
    (inverseProg h qid n).1 qid = h qid ∧
    (inverseProg h qid n).1 (inverseProg h qid n).2 =
      negVecRows (reshape14 (h qid)) := by
  constructor
  · simp only [inverseProg]
    rw [Function.update_noteq (Ne.symm hfresh), Function.update_noteq (Ne.symm hfresh),
      Function.update_noteq (Ne.symm hfresh)]
  · simp only [inverseProg]
    rw [Function.update_same, Function.update_same, Function.update_same]

theorem C10_inverse_witness :
    (1 : ℕ) ≠ 0 ∧
    ((inverseProg (fun _ => NpVal.one [1, 2, 3, 4]) 0 1).1 0 =
      NpVal.one [1, 2, 3, 4] ∧
    (inverseProg (fun _ => NpVal.one [1, 2, 3, 4]) 0 1).1
        (inverseProg (fun _ => NpVal.one [1, 2, 3, 4]) 0 1).2 =
      NpVal.two [[1, -2, -3, -4]]) := by
  refine ⟨by decide, ?_⟩
  have hthm := C10_inverse_no_mutation (fun _ => NpVal.one [1, 2, 3, 4]) 0 1
    (by decide)
  refine ⟨hthm.1, hthm.2.trans ?_⟩
  show NpVal.two [negVecRow [1, 2, 3, 4]] = NpVal.two [[1, -2, -3, -4]]
  norm_num [negVecRow]
end Polycrystal
